import Mathlib

/-!
Zapi: route registration, pattern compilation and dispatch.

A shallow embedding of `router.add` (router.go) and `App.ServeHTTP` (app.go).

Modelling conventions.

* A Go `string` is a list of characters (`Str`).  All characters that the code
  treats specially (`/`, `*`, `[`, `]`, the regular expression metacharacters)
  are ASCII, so the byte view and the character view of a valid UTF-8 string
  agree.
* The Go standard library functions used by the two functions are modelled in
  the namespaces `strings`, `slices`, `filepath` and `regexp`.
* `regexp.MustCompile` is modelled as a parser for the fragment of the RE2
  syntax that the code can produce: `^ item* $`, where an item is a literal
  character (plain or backslash-escaped), a literal followed by `?`, or a
  capture group around one repeated character class (`(.*)`, `(.+)`,
  `([^c]*)`, `([^c]+)`).  Outside the fragment it returns `none` (which also
  stands for the panic of the original).
* Matching follows the leftmost-first (backtracking priority) discipline of
  Go's `regexp` package: repetitions are greedy, `.` does not match a line
  feed, a negated class does, and `^`/`$` match at the ends of the text only.
* The response writer, the file system and the route handlers are effects:
  `ServeHTTP` returns the list of effects it performs, in order.
-/

namespace Zapi

/-- A Go string, as the list of its characters. -/
abbrev Str := List Char

/-! ## Standard library: strings, slices, filepath -/

namespace strings

/-- Go strings.Trim(s, cutset): remove every leading and trailing character
that occurs in the cutset. -/
def Trim (s cutset : Str) : Str :=
  ((s.dropWhile (fun c => cutset.contains c)).reverse.dropWhile
    (fun c => cutset.contains c)).reverse

/-- Go strings.Split(s, sep) for a separator of one character: the pieces of
s between the occurrences of sep (always at least one piece). -/
def Split : Str → Char → List Str
  | [], _ => [[]]
  | c :: cs, sep =>
    if c = sep then [] :: Split cs sep
    else
      match Split cs sep with
      | [] => [[c]]
      | s :: ss => (c :: s) :: ss

/-- Go strings.HasPrefix. -/
def HasPrefix (s pre : Str) : Bool := pre.isPrefixOf s

/-- Go strings.Join. -/
def Join (elems : List Str) (sep : Str) : Str := sep.intercalate elems

/-- Helper of Replace: n is the number of replacements still allowed and
skip the number of characters of a replaced occurrence still to be dropped. -/
def replaceAux (old new : Str) : Nat → Nat → Str → Str
  | _, _ + 1, [] => []
  | n, skip + 1, _ :: cs => replaceAux old new n skip cs
  | 0, 0, s => s
  | _ + 1, 0, [] => if old = [] then new else []
  | n + 1, 0, c :: cs =>
    if old = [] then new ++ c :: replaceAux old new n 0 cs
    else if old.isPrefixOf (c :: cs) then new ++ replaceAux old new n (old.length - 1) cs
    else c :: replaceAux old new (n + 1) 0 cs

/-- Go strings.Replace(s, old, new, n) for n ≥ 0: replace the first n
non-overlapping occurrences of old by new. -/
def Replace (s old new : Str) (n : Nat) : Str := replaceAux old new n 0 s

end strings

namespace slices

/-- Go slices.Contains. -/
def Contains (s : List Str) (v : Str) : Bool := s.contains v

end slices

namespace filepath

/-- Helper of Ext: scans the reversed path; acc is the part already scanned,
in original order. -/
def extAux : Str → Str → Str
  | [], _ => []
  | c :: cs, acc =>
    if c = '/' then []
    else if c = '.' then c :: acc
    else extAux cs (c :: acc)

/-- Go filepath.Ext (with the path separator of Unix): the suffix starting at
the last dot of the last path element, or the empty string. -/
def Ext (path : Str) : Str := extAux path.reverse []

end filepath

/-! ## Standard library: regexp -/

namespace regexp

/-- The metacharacters escaped by Go regexp.QuoteMeta. -/
def special : List Char :=
  ['\\', '.', '+', '*', '?', '(', ')', '|', '[', ']', '\x7b', '\x7d', '^', '$']

/-- Go regexp.QuoteMeta: put a backslash before every metacharacter. -/
def QuoteMeta : Str → Str
  | [] => []
  | c :: cs => if c ∈ special then '\\' :: c :: QuoteMeta cs else c :: QuoteMeta cs

/-- The character classes of the fragment: the dot (any character but the line
feed) and a negated one-character class (any character but the given one, the
line feed included). -/
inductive CharSet where
  | dot
  | notChar (c : Char)
  deriving DecidableEq, Repr

/-- Membership of a character in a class. -/
def CharSet.test : CharSet → Char → Bool
  | .dot, x => x != '\n'
  | .notChar c, x => x != c

/-- The items of a compiled expression. -/
inductive Tok where
  | lit (c : Char)
  | opt (c : Char)
  | capStar (k : CharSet)
  | capPlus (k : CharSet)
  deriving DecidableEq, Repr

/-- A compiled expression of the fragment, anchored at both ends. -/
structure Regexp where
  toks : List Tok
  deriving DecidableEq, Repr

/-- The repetition operator that closes a capture group. -/
def quant (k : CharSet) (q : Char) : Option Tok :=
  if q = '*' then some (.capStar k)
  else if q = '+' then some (.capPlus k)
  else none

/-- Parser for the items after the leading anchor, up to and including the
closing anchor. -/
def parseItems : Str → Option (List Tok)
  | [] => none
  | c :: rest =>
    if c = '$' then
      if rest = [] then some [] else none
    else if c = '(' then
      match rest with
      | a :: q :: z :: r3 =>
        if a = '.' then
          if z = ')' then
            (quant .dot q).bind fun t => (parseItems r3).map (t :: ·)
          else none
        else if a = '[' ∧ q = '^' then
          match r3 with
          | y :: q2 :: z2 :: r6 =>
            if z = '\\' then
              match r6 with
              | z3 :: r7 =>
                if y ∈ special ∧ q2 = ']' ∧ z3 = ')' then
                  (quant (.notChar y) z2).bind fun t => (parseItems r7).map (t :: ·)
                else none
              | [] => none
            else if z ∉ special ∧ y = ']' ∧ z2 = ')' then
              (quant (.notChar z) q2).bind fun t => (parseItems r6).map (t :: ·)
            else none
          | _ => none
        else none
      | _ => none
    else if c = '\\' then
      match rest with
      | d :: q :: r2 =>
        if d ∈ special then
          if q = '?' then (parseItems r2).map (Tok.opt d :: ·)
          else (parseItems (q :: r2)).map (Tok.lit d :: ·)
        else none
      | _ => none
    else if c ∈ special then none
    else
      match rest with
      | q :: r1 =>
        if q = '?' then (parseItems r1).map (Tok.opt c :: ·)
        else (parseItems (q :: r1)).map (Tok.lit c :: ·)
      | [] => none

/-- Go regexp.MustCompile on the fragment; none outside of it. -/
def MustCompile (expr : Str) : Option Regexp :=
  match expr with
  | c :: rest => if c = '^' then (parseItems rest).map Regexp.mk else none
  | [] => none

/-- Greedy repetition of a class with backtracking: acc is the text captured
so far, k the continuation, called with the captured text and the rest of the
input.  Longer captures are tried first. -/
def star {R : Type} (ok : Char → Bool) (k : Str → Str → Option R) : Str → Str → Option R
  | acc, [] => k acc []
  | acc, c :: cs =>
    if ok c then
      match star ok k (acc ++ [c]) cs with
      | some r => some r
      | none => k acc (c :: cs)
    else k acc (c :: cs)

/-- Backtracking matcher: the captures of the first match in priority order
of the items against the whole input. -/
def matchToks : List Tok → Str → Option (List Str)
  | [], [] => some []
  | [], _ :: _ => none
  | .lit _ :: _, [] => none
  | .lit c :: ts, x :: xs => if x = c then matchToks ts xs else none
  | .opt _ :: ts, [] => matchToks ts []
  | .opt c :: ts, x :: xs =>
    if x = c then
      match matchToks ts xs with
      | some r => some r
      | none => matchToks ts (x :: xs)
    else matchToks ts (x :: xs)
  | .capStar k :: ts, s =>
    star k.test (fun cap rest => (matchToks ts rest).map (cap :: ·)) [] s
  | .capPlus _ :: _, [] => none
  | .capPlus k :: ts, x :: xs =>
    if k.test x then
      star k.test (fun cap rest => (matchToks ts rest).map (cap :: ·)) [x] xs
    else none

/-- Go (*Regexp).FindStringSubmatch: none for no match, otherwise the matched
text followed by the text of each capture group. -/
def Regexp.FindStringSubmatch (re : Regexp) (s : Str) : Option (List Str) :=
  (matchToks re.toks s).map (s :: ·)

/-- Go (*Regexp).MatchString. -/
def Regexp.MatchString (re : Regexp) (s : Str) : Bool :=
  (matchToks re.toks s).isSome

end regexp

/-! ## net/http constants and the effects of a request -/

namespace http

/-- Go http.MethodOptions. -/
def MethodOptions : Str := "OPTIONS".toList

/-- Go http.StatusNoContent. -/
def StatusNoContent : Nat := 204

end http

/-- A Go map[string]string, as an association list with unique keys. -/
abbrev Params := List (Str × Str)

/-- Map assignment m[k] = v: an existing entry for k is replaced. -/
def Params.set (m : Params) (k v : Str) : Params :=
  (k, v) :: m.filter (fun kv => kv.1 != k)

/-- Map lookup. -/
def Params.get (m : Params) (k : Str) : Option Str := List.lookup k m

/-- The part of an incoming request that ServeHTTP reads: req.Method,
req.URL.Path and req.Header.Get("Origin"). -/
structure Request where
  Method : Str
  Path : Str
  Origin : Str
  deriving DecidableEq, Repr

/-- What surrounds the dispatcher: the file system seen through os.Stat
(true when it returns no error) and os.ReadFile (the data, the error being
ignored by the code), and the table mimeTypes of handler.go, which is taken
as a parameter: what is proved holds for every table. -/
structure World where
  stat : Str → Bool
  readFile : Str → Str
  mimeTypes : Str → Option Str

/-- The observable actions of ServeHTTP, in the order in which they happen.
The type H is the type of route handlers, which are opaque. -/
inductive Effect (H : Type) where
  | setHeader (key value : Str)
  | writeHeader (status : Nat)
  | write (data : Str)
  | stat (filePath : Str)
  | readFile (filePath : Str)
  | call (h : H) (params : Params)
  deriving DecidableEq, Repr

/-! ## router.go -/

/-- The struct route. -/
structure route (H : Type) where
  method : Str
  regex : regexp.Regexp
  handler : H
  paramNames : List Str
  deriving DecidableEq, Repr

/-- The struct router. -/
structure router (H : Type) where
  routes : List (route H)
  deriving DecidableEq, Repr

/-- The local variables of router.add that the loop over the segments
updates. -/
structure AddState where
  pattern : Str
  paramNames : List Str
  isMoreSpecific : Bool
  deriving DecidableEq, Repr

/-- The expression that recognises a parameter segment (router.go, line 32). -/
def paramPattern : Str := "^(.*)\\[([^\\]]+)\\](.*)$".toList

/-- One iteration of the loop of router.add (lines 28 to 53). -/
def addSegment (paramRe : regexp.Regexp) (st : AddState) (segment : Str) : AddState :=
  let pattern := st.pattern ++ "/".toList
  match paramRe.FindStringSubmatch segment with
  | some paramMatch =>
    let pre := regexp.QuoteMeta (paramMatch.getD 1 [])
    let paramName := paramMatch.getD 2 []
    let suffix := regexp.QuoteMeta (paramMatch.getD 3 [])
    { pattern := pattern ++ (pre ++ "([^/]+)".toList ++ suffix)
      paramNames := st.paramNames ++ [paramName]
      isMoreSpecific := if pre ≠ [] ∨ suffix ≠ [] then true else st.isMoreSpecific }
  | none =>
    if segment = "*".toList then
      { pattern := pattern ++ "(.+)".toList
        paramNames := st.paramNames ++ ["*".toList]
        isMoreSpecific := st.isMoreSpecific }
    else
      { pattern := pattern ++ regexp.QuoteMeta segment
        paramNames := st.paramNames
        isMoreSpecific := true }

/-- The state of router.add after the loop over the segments of the path. -/
def addLoop (paramRe : regexp.Regexp) (path : Str) : AddState :=
  let segments := strings.Split (strings.Trim path "/".toList) '/'
  segments.foldl (addSegment paramRe) { pattern := "^".toList, paramNames := [], isMoreSpecific := false }

/-- The function router.add.  The parameter expression, which the code
compiles anew for every segment, is compiled once before the loop.  The result
is none when a call of regexp.MustCompile leaves the modelled fragment. -/
def router.add {H : Type} (r : router H) (method path : Str) (h : H) : Option (router H) :=
  match regexp.MustCompile paramPattern with
  | none => none
  | some paramRe =>
    let st := addLoop paramRe path
    let pattern := st.pattern ++ "/?$".toList
    match regexp.MustCompile pattern with
    | none => none
    | some regex =>
      let entry : route H :=
        { method := method, regex := regex, handler := h, paramNames := st.paramNames }
      if st.isMoreSpecific then some { routes := [entry] ++ r.routes }
      else some { routes := r.routes ++ [entry] }

/-- The method router.get. -/
def router.get {H : Type} (r : router H) (path : Str) (h : H) : Option (router H) :=
  r.add "GET".toList path h

/-- The method router.post. -/
def router.post {H : Type} (r : router H) (path : Str) (h : H) : Option (router H) :=
  r.add "POST".toList path h

/-- The method router.put. -/
def router.put {H : Type} (r : router H) (path : Str) (h : H) : Option (router H) :=
  r.add "PUT".toList path h

/-- The method router.delete. -/
def router.delete {H : Type} (r : router H) (path : Str) (h : H) : Option (router H) :=
  r.add "DELETE".toList path h

/-! ## app.go -/

/-- The struct cors. -/
structure cors where
  AllowedOrigins : List Str
  AllowedMethods : List Str
  AllowedHeaders : List Str
  AllowCredentials : Bool
  deriving DecidableEq, Repr

/-- The struct Public. -/
structure Public where
  url : Str
  dir : Str
  inUse : Bool
  deriving DecidableEq, Repr

/-- The struct App (the field server plays no part in dispatch). -/
structure App (H : Type) where
  router : router H
  public : Public
  CORS : cors
  deriving DecidableEq, Repr

/-- The constructor New. -/
def New (H : Type) : App H :=
  { router := { routes := [] }
    public := { url := [], dir := [], inUse := false }
    CORS :=
      { AllowedOrigins := []
        AllowedMethods := ["GET".toList, "POST".toList, "PUT".toList, "DELETE".toList]
        AllowedHeaders := ["Content-Type".toList, "Authorization".toList]
        AllowCredentials := true } }

/-- The method App.Public. -/
def App.Public {H : Type} (app : App H) (url dir : Str) : App H :=
  { app with public := { url := url, dir := dir, inUse := true } }

/-- The method App.Get. -/
def App.Get {H : Type} (app : App H) (path : Str) (h : H) : Option (App H) :=
  (app.router.get path h).map fun r => { app with router := r }

/-- The method App.Post. -/
def App.Post {H : Type} (app : App H) (path : Str) (h : H) : Option (App H) :=
  (app.router.post path h).map fun r => { app with router := r }

/-- The method App.Put. -/
def App.Put {H : Type} (app : App H) (path : Str) (h : H) : Option (App H) :=
  (app.router.put path h).map fun r => { app with router := r }

/-- The method App.Delete. -/
def App.Delete {H : Type} (app : App H) (path : Str) (h : H) : Option (App H) :=
  (app.router.delete path h).map fun r => { app with router := r }

/-- The loop that fills the parameter map (app.go, lines 128 to 132); i is
the index of the first name of the list. -/
def fillParams (submatches : List Str) : Nat → List Str → Params → Params
  | _, [], params => params
  | i, name :: names, params =>
    fillParams submatches (i + 1) names
      (if i + 1 < submatches.length then Params.set params name (submatches.getD (i + 1) [])
       else params)

/-- The loop over the routes (app.go, lines 116 to 145). -/
def serveRoutes {H : Type} (method path : Str) : List (route H) → List (Effect H)
  | [] => []
  | route :: rest =>
    if !route.regex.MatchString path then serveRoutes method path rest
    else
      match route.regex.FindStringSubmatch path with
      | none => serveRoutes method path rest
      | some submatches =>
        if submatches.length = 0 then serveRoutes method path rest
        else if route.method = method then
          [Effect.call route.handler (fillParams submatches 0 route.paramNames [])]
        else
          [Effect.writeHeader 404, Effect.write "404 Not Found !".toList]
            ++ serveRoutes method path rest

/-- The CORS part of ServeHTTP (app.go, lines 65 to 83). -/
def corsHeaders {H : Type} (c : cors) (req : Request) : List (Effect H) :=
  let origin := req.Origin
  let allowedOrigin := if slices.Contains c.AllowedOrigins origin then origin else []
  [Effect.setHeader "Access-Control-Allow-Origin".toList allowedOrigin,
   Effect.setHeader "Access-Control-Allow-Methods".toList
     (strings.Join c.AllowedMethods ", ".toList),
   Effect.setHeader "Access-Control-Allow-Headers".toList
     (strings.Join c.AllowedHeaders ", ".toList)]
  ++ (if c.AllowCredentials then
        [Effect.setHeader "Access-Control-Allow-Credentials".toList "true".toList]
      else [])

/-- The part of ServeHTTP after the CORS part, for a request that is not a
preflight (app.go, lines 92 to 145). -/
def serveBody {H : Type} (w : World) (app : App H) (req : Request) : List (Effect H) :=
  let path := req.Path
  let method := req.Method
  if app.public.inUse && strings.HasPrefix path (app.public.url ++ "/".toList) then
    let filePath := app.public.dir ++ strings.Replace path app.public.url [] 1
    if w.stat filePath then
      let data := w.readFile filePath
      let ext := filepath.Ext filePath
      let mime := (w.mimeTypes ext).getD "application/octet-stream".toList
      [Effect.stat filePath, Effect.readFile filePath]
        ++ (if ext ≠ [] ∧ mime ≠ [] then [Effect.setHeader "Content-Type".toList mime] else [])
        ++ [Effect.write data]
    else
      Effect.stat filePath :: serveRoutes method path app.router.routes
  else
    serveRoutes method path app.router.routes

/-- The method App.ServeHTTP. -/
def App.ServeHTTP {H : Type} (w : World) (app : App H) (req : Request) : List (Effect H) :=
  corsHeaders app.CORS req ++
    (if req.Method = http.MethodOptions then [Effect.writeHeader http.StatusNoContent]
     else serveBody w app req)

/-! ## Vocabulary of the statements -/

open regexp

/-- The literal items of a text. -/
def lits (s : Str) : List Tok := s.map Tok.lit

namespace regexp

/-- Declarative matching: the items match the whole text with the given
captures, in some way. -/
inductive Matches : List Tok → Str → List Str → Prop where
  | nil : Matches [] [] []
  | lit {c ts s cs} : Matches ts s cs → Matches (.lit c :: ts) (c :: s) cs
  | optSome {c ts s cs} : Matches ts s cs → Matches (.opt c :: ts) (c :: s) cs
  | optNone {c ts s cs} : Matches ts s cs → Matches (.opt c :: ts) s cs
  | star {k ts v s cs} : (∀ x ∈ v, k.test x = true) → Matches ts s cs →
      Matches (.capStar k :: ts) (v ++ s) (v :: cs)
  | plus {k ts v s cs} : v ≠ [] → (∀ x ∈ v, k.test x = true) → Matches ts s cs →
      Matches (.capPlus k :: ts) (v ++ s) (v :: cs)

end regexp

/-- The compiled form of paramPattern. -/
def paramRe : Regexp :=
  ⟨[.capStar .dot, .lit '[', .capPlus (.notChar ']'), .lit ']', .capStar .dot]⟩

/-- The three kinds of segment that the loop of router.add distinguishes. -/
inductive SegKind where
  | param (pre name suf : Str)
  | wildcard
  | literal
  deriving DecidableEq, Repr

/-- The kind of a segment, decided as in router.add: first the parameter
expression, then the comparison with the star. -/
def segKind (segment : Str) : SegKind :=
  match paramRe.FindStringSubmatch segment with
  | some paramMatch =>
    .param (paramMatch.getD 1 []) (paramMatch.getD 2 []) (paramMatch.getD 3 [])
  | none => if segment = "*".toList then .wildcard else .literal

/-- The segments of a registered path (router.go, line 23). -/
def segments (path : Str) : List Str :=
  strings.Split (strings.Trim path "/".toList) '/'

/-- The text that one segment adds to the pattern. -/
def segPattern (seg : Str) : Str :=
  "/".toList ++
    match segKind seg with
    | .param pre _ suf => QuoteMeta pre ++ "([^/]+)".toList ++ QuoteMeta suf
    | .wildcard => "(.+)".toList
    | .literal => QuoteMeta seg

/-- The items that one segment contributes to the compiled expression. -/
def segToks (seg : Str) : List Tok :=
  Tok.lit '/' ::
    match segKind seg with
    | .param pre _ suf => lits pre ++ [Tok.capPlus (.notChar '/')] ++ lits suf
    | .wildcard => [Tok.capPlus .dot]
    | .literal => lits seg

/-- The parameter names that one segment declares. -/
def segNames (seg : Str) : List Str :=
  match segKind seg with
  | .param _ name _ => [name]
  | .wildcard => ["*".toList]
  | .literal => []

/-- Whether a segment makes its route more specific. -/
def segSpecific (seg : Str) : Bool :=
  match segKind seg with
  | .param pre _ suf => decide (pre ≠ [] ∨ suf ≠ [])
  | .wildcard => false
  | .literal => true

/-- The items of the expression compiled for a path. -/
def routeToks (path : Str) : List Tok :=
  ((segments path).map segToks).flatten ++ [Tok.opt '/']

/-- The parameter names declared by a path, from left to right. -/
def declaredNames (path : Str) : List Str :=
  ((segments path).map segNames).flatten

/-- A path is more specific when one of its segments is a bare literal or a
parameter segment with a non-empty text before or after the brackets. -/
def MoreSpecific (path : Str) : Bool :=
  (segments path).any segSpecific

/-- The route entry that router.add builds for a registration. -/
def entry {H : Type} (method path : Str) (h : H) : route H :=
  { method := method, regex := ⟨routeToks path⟩, handler := h, paramNames := declaredNames path }

/-- One call of a registration method: the verb, the path and the handler. -/
structure Registration (H : Type) where
  method : Str
  path : Str
  handler : H
  deriving DecidableEq, Repr

/-- A sequence of registrations, applied from left to right with router.add. -/
def registerAll {H : Type} (r : router H) : List (Registration H) → Option (router H)
  | [] => some r
  | reg :: regs => (r.add reg.method reg.path reg.handler).bind fun r1 => registerAll r1 regs

/-- The route entry of a registration. -/
def Registration.entry {H : Type} (reg : Registration H) : route H :=
  Zapi.entry reg.method reg.path reg.handler

/-- The route that router.add builds for a registration: the only entry of
the table after the registration into an empty router. -/
def compiledRoute {H : Type} (method path : Str) (h : H) : Option (route H) :=
  match router.add { routes := [] } method path h with
  | some r => r.routes.head?
  | none => none

/-- Whether the expression that router.add compiles for a registered path
matches a request path. -/
def PathMatches (path reqPath : Str) : Bool :=
  match compiledRoute [] path () with
  | some rt => rt.regex.MatchString reqPath
  | none => false

/-- The parameter map that ServeHTTP builds for a route and a request path
(app.go, lines 121 to 132). -/
def routeParams {H : Type} (rt : route H) (reqPath : Str) : Params :=
  fillParams ((rt.regex.FindStringSubmatch reqPath).getD []) 0 rt.paramNames []

/-- The parameter map that ServeHTTP builds for the route of a registered path
and a request path. -/
def pathParams (path reqPath : Str) : Params :=
  match compiledRoute [] path () with
  | some rt => routeParams rt reqPath
  | none => []

/-- The first route of the table whose expression matches the path and whose
method is the method of the request. -/
def lookup {H : Type} (method path : Str) (routes : List (route H)) : Option (route H) :=
  routes.find? fun rt => rt.regex.MatchString path && decide (rt.method = method)

/-- The file that the static part of ServeHTTP probes, if any. -/
def staticPath (pub : Public) (path : Str) : Option Str :=
  if pub.inUse && strings.HasPrefix path (pub.url ++ "/".toList) then
    some (pub.dir ++ strings.Replace path pub.url [] 1)
  else none

/-- Whether the request is answered from the static directory. -/
def servedStatic (w : World) (pub : Public) (req : Request) : Bool :=
  match staticPath pub req.Path with
  | some filePath => w.stat filePath
  | none => false

/-- The effects of an unsuccessful probe of the static directory. -/
def probe {H : Type} (pub : Public) (req : Request) : List (Effect H) :=
  match staticPath pub req.Path with
  | some filePath => [Effect.stat filePath]
  | none => []

/-- A world without files and with an empty table of MIME types. -/
def emptyWorld : World :=
  { stat := fun _ => false, readFile := fun _ => [], mimeTypes := fun _ => none }

/-- The registrations of the example of C1, the parameter route first. -/
def usersRegs : List (Registration Nat) :=
  [⟨"GET".toList, "/users/[id]".toList, 1⟩, ⟨"GET".toList, "/users/admin".toList, 2⟩]

/-- The registrations of the example of C1, the literal route first. -/
def usersRegsRev : List (Registration Nat) :=
  [⟨"GET".toList, "/users/admin".toList, 2⟩, ⟨"GET".toList, "/users/[id]".toList, 1⟩]

/-- The application made of New and a sequence of registrations. -/
def appOf {H : Type} (regs : List (Registration H)) : Option (App H) :=
  (registerAll (New H).router regs).map fun r => { New H with router := r }

/-- The effects of ServeHTTP after the CORS headers, in a world without files,
for the application made of a sequence of registrations. -/
def respond {H : Type} (regs : List (Registration H)) (method path : Str) :
    Option (List (Effect H)) :=
  (appOf regs).map fun app =>
    (app.ServeHTTP emptyWorld { Method := method, Path := path, Origin := [] }).drop
      (corsHeaders (H := H) app.CORS { Method := method, Path := path, Origin := [] }).length

/-- A less-specific route that matches every path with a non-empty remainder
after the first slash, registered before the two routes of the example of C1. -/
def wildFirstRegs : List (Registration Nat) :=
  [⟨"GET".toList, "/*".toList, 0⟩, ⟨"GET".toList, "/users/[id]".toList, 1⟩,
   ⟨"GET".toList, "/users/admin".toList, 2⟩]

/-- The same less-specific route registered after the literal route. -/
def wildLastRegs : List (Registration Nat) :=
  [⟨"GET".toList, "/users/admin".toList, 2⟩, ⟨"GET".toList, "/*".toList, 0⟩]

/-- Two registrations of the same method and less-specific pattern. -/
def twiceBare : List (Registration Nat) :=
  [⟨"GET".toList, "/[id]".toList, 1⟩, ⟨"GET".toList, "/[id]".toList, 2⟩]

/-- Two registrations of the same method and more-specific pattern. -/
def twiceLiteral : List (Registration Nat) :=
  [⟨"GET".toList, "/a".toList, 1⟩, ⟨"GET".toList, "/a".toList, 2⟩]

/-- The registrations of the example of C2: Post("/items") then Get("/items"). -/
def itemsApp : Option (App Nat) :=
  ((New Nat).Post "/items".toList 1).bind fun app => app.Get "/items".toList 2

/-- The effects of ServeHTTP that follow the header Access-Control-Allow-Origin. -/
def afterOrigin {H : Type} (w : World) (app : App H) (req : Request) : List (Effect H) :=
  [Effect.setHeader "Access-Control-Allow-Methods".toList
     (strings.Join app.CORS.AllowedMethods ", ".toList),
   Effect.setHeader "Access-Control-Allow-Headers".toList
     (strings.Join app.CORS.AllowedHeaders ", ".toList)]
  ++ (if app.CORS.AllowCredentials then
        [Effect.setHeader "Access-Control-Allow-Credentials".toList "true".toList]
      else [])
  ++ (if req.Method = http.MethodOptions then [Effect.writeHeader http.StatusNoContent]
      else serveBody w app req)

/-- The application of the example of C8: the allow-list holds only
http://good.com. -/
def goodOnly : App Nat :=
  { New Nat with CORS := { (New Nat).CORS with AllowedOrigins := ["http://good.com".toList] } }

/-- A segment has the shape of a parameter segment: some text, an opening
bracket, a non-empty name without closing bracket, a closing bracket, some
text. -/
def HasParamShape (seg : Str) : Prop :=
  ∃ pre name suf : Str, seg = pre ++ '[' :: name ++ ']' :: suf ∧ name ≠ [] ∧ ']' ∉ name

/-- The items compiled for a list of segments. -/
def segsToks (segs : List Str) : List Tok :=
  (segs.map segToks).flatten ++ [Tok.opt '/']

/-- Go (*Regexp).NumSubexp: the number of capture groups. -/
def regexp.Regexp.NumSubexp (re : Regexp) : Nat :=
  (re.toks.filter fun t =>
    match t with
    | .capStar _ => true
    | .capPlus _ => true
    | _ => false).length

/-- The request path obtained from the segments of a pattern by putting the
next value in the place of the bracketed name of each parameter segment; every
segment is preceded by a slash. -/
def fillSegments : List Str → List Str → Str
  | [], _ => []
  | seg :: segs, vals =>
    match segKind seg, vals with
    | .param pre _ suf, v :: vs => '/' :: (pre ++ (v ++ (suf ++ fillSegments segs vs)))
    | _, _ => '/' :: (seg ++ fillSegments segs vals)

/-- The request path "/" + trimmed pattern, with the i-th value in the place of
the i-th bracketed name. -/
def instantiate (path : Str) (vals : List Str) : Str :=
  fillSegments (segments path) vals

/-- A segment as the claims write it: a bare literal, or some text, a
bracketed name and some text. -/
inductive SegSpec where
  | literal (text : Str)
  | param (pre name suf : Str)
  deriving DecidableEq, Repr

/-- The text of a segment. -/
def SegSpec.text : SegSpec → Str
  | .literal t => t
  | .param pre name suf => pre ++ '[' :: (name ++ ']' :: suf)

/-- The parameter names that a segment declares. -/
def SegSpec.names : SegSpec → List Str
  | .literal _ => []
  | .param _ name _ => [name]

/-- A reading of a segment as a parameter segment: some text without line
feed, an opening bracket, a non-empty name without closing bracket, a closing
bracket, some text without line feed. -/
def ParamReading (seg pre name suf : Str) : Prop :=
  seg = pre ++ '[' :: (name ++ ']' :: suf) ∧ name ≠ [] ∧ ']' ∉ name ∧ '\n' ∉ pre ∧ '\n' ∉ suf

/-- A bare literal has not the shape of a parameter segment and is not the
star.  A parameter segment is read with its last bracketed name: the reading
is one without line feed before and after the brackets, and no other such
reading of the same segment has a longer text before the brackets. -/
def SegSpec.WellFormed : SegSpec → Prop
  | .literal t => ¬ HasParamShape t ∧ t ≠ "*".toList
  | .param pre name suf =>
    ParamReading (pre ++ '[' :: (name ++ ']' :: suf)) pre name suf ∧
    ∀ pre1 name1 suf1 : Str,
      ParamReading (pre ++ '[' :: (name ++ ']' :: suf)) pre1 name1 suf1 →
        pre1.length ≤ pre.length

/-- The request path obtained by replacing the bracketed name of each
parameter segment by the next value; every segment is preceded by a slash. -/
def fillSpecs : List SegSpec → List Str → Str
  | [], _ => []
  | .literal t :: specs, vals => '/' :: (t ++ fillSpecs specs vals)
  | .param pre _ suf :: specs, v :: vs => '/' :: (pre ++ (v ++ (suf ++ fillSpecs specs vs)))
  | .param pre name suf :: specs, [] =>
    '/' :: ((pre ++ '[' :: (name ++ ']' :: suf)) ++ fillSpecs specs [])

/-- The segments of the witness of C5. -/
def postsSpecs : List SegSpec :=
  [.literal "users".toList, .param [] "id".toList [], .literal "posts".toList,
   .param "x".toList "pid".toList "y".toList]

/-! ## Theorems -/

namespace regexp

theorem special_ne_question {c : Char} (h : c ∉ special) : c ≠ '?' := by
  intro hc; subst hc; exact h (by decide)

theorem quoteMeta_append_head (s r : Str) (hr : ∃ q r2, r = q :: r2 ∧ q ≠ '?') :
    ∃ q r2, QuoteMeta s ++ r = q :: r2 ∧ q ≠ '?' := by
  cases s with
  | nil => simpa [QuoteMeta] using hr
  | cons c cs =>
    by_cases hc : c ∈ special
    · exact ⟨'\\', c :: (QuoteMeta cs ++ r), by simp [QuoteMeta, hc], by decide⟩
    · exact ⟨c, QuoteMeta cs ++ r, by simp [QuoteMeta, hc], special_ne_question hc⟩

theorem parseItems_lit (c : Char) (q : Char) (r : Str) (hc : c ∉ special) (hq : q ≠ '?') :
    parseItems (c :: q :: r) = (parseItems (q :: r)).map (Tok.lit c :: ·) := by
  have h1 : c ≠ '$' := by intro h; subst h; exact hc (by decide)
  have h2 : c ≠ '(' := by intro h; subst h; exact hc (by decide)
  have h3 : c ≠ '\\' := by intro h; subst h; exact hc (by decide)
  conv_lhs => unfold parseItems
  simp [h1, h2, h3, hc, hq]

theorem parseItems_esc (c : Char) (q : Char) (r : Str) (hc : c ∈ special) (hq : q ≠ '?') :
    parseItems ('\\' :: c :: q :: r) = (parseItems (q :: r)).map (Tok.lit c :: ·) := by
  conv_lhs => unfold parseItems
  simp [hc, hq]

theorem parseItems_quoteMeta (s r : Str) (hr : ∃ q r2, r = q :: r2 ∧ q ≠ '?') :
    parseItems (QuoteMeta s ++ r) = (parseItems r).map (lits s ++ ·) := by
  induction s with
  | nil => simp [QuoteMeta, lits]
  | cons c cs ih =>
    obtain ⟨q, r2, hqr, hq⟩ := quoteMeta_append_head cs r hr
    by_cases hc : c ∈ special
    · simp only [QuoteMeta, hc, if_true, List.cons_append]
      rw [hqr, parseItems_esc c q r2 hc hq, ← hqr, ih]
      simp [lits, Option.map_map, Function.comp_def]
    · simp only [QuoteMeta, hc, if_false, List.cons_append]
      rw [hqr, parseItems_lit c q r2 hc hq, ← hqr, ih]
      simp [lits, Option.map_map, Function.comp_def]

theorem parseItems_capSeg (r : Str) :
    parseItems ("([^/]+)".toList ++ r) = (parseItems r).map (Tok.capPlus (.notChar '/') :: ·) := by
  show parseItems ('(' :: '[' :: '^' :: '/' :: ']' :: '+' :: ')' :: r) = _
  conv_lhs => unfold parseItems
  simp [quant, special]

theorem parseItems_capAny (r : Str) :
    parseItems ("(.+)".toList ++ r) = (parseItems r).map (Tok.capPlus .dot :: ·) := by
  show parseItems ('(' :: '.' :: '+' :: ')' :: r) = _
  conv_lhs => unfold parseItems
  simp [quant]

theorem parseItems_slash (q : Char) (r : Str) (hq : q ≠ '?') :
    parseItems ('/' :: q :: r) = (parseItems (q :: r)).map (Tok.lit '/' :: ·) :=
  parseItems_lit '/' q r (by decide) hq

theorem parseItems_end : parseItems "/?$".toList = some [Tok.opt '/'] := by decide

theorem star_sound {R : Type} (ok : Char → Bool) (k : Str → Str → Option R) :
    ∀ (s acc : Str) (r : R), star ok k acc s = some r →
      ∃ v rest, s = v ++ rest ∧ (∀ x ∈ v, ok x = true) ∧ k (acc ++ v) rest = some r := by
  intro s
  induction s with
  | nil =>
    intro acc r h
    exact ⟨[], [], rfl, by simp, by simpa [star] using h⟩
  | cons c cs ih =>
    intro acc r h
    rw [star] at h
    by_cases hc : ok c = true
    · simp only [hc, if_true] at h
      cases hrec : star ok k (acc ++ [c]) cs with
      | some r1 =>
        rw [hrec] at h
        obtain ⟨v, rest, hs, hv, hk⟩ := ih (acc ++ [c]) r1 hrec
        refine ⟨c :: v, rest, by simp [hs], ?_, ?_⟩
        · intro x hx
          rcases List.mem_cons.mp hx with rfl | hx
          · exact hc
          · exact hv x hx
        · simp only [Option.some.injEq] at h
          subst h
          simpa using hk
      | none =>
        rw [hrec] at h
        exact ⟨[], c :: cs, rfl, by simp, by simpa using h⟩
    · simp only [hc] at h
      exact ⟨[], c :: cs, rfl, by simp, by simpa using h⟩

theorem star_of_cont {R : Type} (ok : Char → Bool) (k : Str → Str → Option R)
    (acc s : Str) (h : (k acc s).isSome = true) : (star ok k acc s).isSome = true := by
  cases s with
  | nil => simpa [star] using h
  | cons c cs =>
    rw [star]
    by_cases hc : ok c = true
    · simp only [hc, if_true]
      cases star ok k (acc ++ [c]) cs with
      | some r1 => simp
      | none => simpa using h
    · simpa [hc] using h

theorem star_complete {R : Type} (ok : Char → Bool) (k : Str → Str → Option R) :
    ∀ (v acc rest : Str), (∀ x ∈ v, ok x = true) → (k (acc ++ v) rest).isSome = true →
      (star ok k acc (v ++ rest)).isSome = true := by
  intro v
  induction v with
  | nil =>
    intro acc rest _ h
    exact star_of_cont ok k acc rest (by simpa using h)
  | cons x v ih =>
    intro acc rest hv h
    have hx : ok x = true := hv x (List.mem_cons_self _ _)
    have hrec := ih (acc ++ [x]) rest (fun y hy => hv y (List.mem_cons_of_mem _ hy))
      (by simpa using h)
    rw [List.cons_append, star]
    simp only [hx, if_true]
    cases hs : star ok k (acc ++ [x]) (v ++ rest) with
    | some r1 => simp
    | none => rw [hs] at hrec; simp at hrec

theorem star_greedy {R : Type} (ok : Char → Bool) (k : Str → Str → Option R) :
    ∀ (s acc : Str) (r : R), (∀ x ∈ s, ok x = true) → k (acc ++ s) [] = some r →
      star ok k acc s = some r := by
  intro s
  induction s with
  | nil => intro acc r _ h; simpa [star] using h
  | cons c cs ih =>
    intro acc r hs h
    have hc : ok c = true := hs c (List.mem_cons_self _ _)
    rw [star]
    simp only [hc, if_true]
    rw [ih (acc ++ [c]) r (fun y hy => hs y (List.mem_cons_of_mem _ hy)) (by simpa using h)]

theorem matchToks_sound : ∀ (ts : List Tok) (s : Str) (cs : List Str),
    matchToks ts s = some cs → Matches ts s cs := by
  intro ts
  induction ts with
  | nil =>
    intro s cs h
    cases s with
    | nil => simp [matchToks] at h; subst h; exact Matches.nil
    | cons x xs => simp [matchToks] at h
  | cons t ts ih =>
    intro s cs h
    cases t with
    | lit c =>
      cases s with
      | nil => simp [matchToks] at h
      | cons x xs =>
        simp only [matchToks] at h
        by_cases hx : x = c
        · subst hx; simp only [if_true] at h; exact Matches.lit (ih _ _ h)
        · simp [hx] at h
    | opt c =>
      cases s with
      | nil => simp only [matchToks] at h; exact Matches.optNone (ih _ _ h)
      | cons x xs =>
        simp only [matchToks] at h
        by_cases hx : x = c
        · subst hx
          simp only [if_true] at h
          cases hrec : matchToks ts xs with
          | some r1 =>
            rw [hrec] at h
            simp only [Option.some.injEq] at h
            subst h
            exact Matches.optSome (ih _ _ hrec)
          | none =>
            rw [hrec] at h
            exact Matches.optNone (ih _ _ h)
        · simp only [hx, if_false] at h
          exact Matches.optNone (ih _ _ h)
    | capStar k =>
      simp only [matchToks] at h
      obtain ⟨v, rest, hs, hv, hk⟩ := star_sound _ _ _ _ _ h
      simp only [List.nil_append, Option.map_eq_some'] at hk
      obtain ⟨cs1, hm, rfl⟩ := hk
      subst hs
      exact Matches.star hv (ih _ _ hm)
    | capPlus k =>
      cases s with
      | nil => simp [matchToks] at h
      | cons x xs =>
        simp only [matchToks] at h
        by_cases hx : k.test x = true
        · simp only [hx, if_true] at h
          obtain ⟨v, rest, hs, hv, hk⟩ := star_sound _ _ _ _ _ h
          simp only [Option.map_eq_some'] at hk
          obtain ⟨cs1, hm, rfl⟩ := hk
          subst hs
          have := @Matches.plus k ts (x :: v) rest cs1 (by simp)
            (by
              intro y hy
              rcases List.mem_cons.mp hy with rfl | hy
              · exact hx
              · exact hv y hy) (ih _ _ hm)
          simpa using this
        · simp [hx] at h

theorem matchToks_complete {ts : List Tok} {s : Str} {cs : List Str}
    (h : Matches ts s cs) : (matchToks ts s).isSome = true := by
  induction h with
  | nil => simp [matchToks]
  | @lit c ts s cs _ ih => simpa [matchToks] using ih
  | @optSome c ts s cs _ ih =>
    simp only [matchToks, if_true]
    cases hrec : matchToks ts s with
    | some r1 => simp
    | none => rw [hrec] at ih; simp at ih
  | @optNone c ts s cs _ ih =>
    cases s with
    | nil => simpa [matchToks] using ih
    | cons x xs =>
      simp only [matchToks]
      by_cases hx : x = c
      · simp only [hx, if_true]
        cases matchToks ts xs with
        | some r1 => simp
        | none => simpa [hx] using ih
      · simpa [hx] using ih
  | @star k ts v s cs hv _ ih =>
    simp only [matchToks]
    apply star_complete _ _ v [] s hv
    simpa using ih
  | @plus k ts v s cs hne hv _ ih =>
    cases v with
    | nil => exact absurd rfl hne
    | cons x v =>
      have hx : k.test x = true := hv x (List.mem_cons_self _ _)
      simp only [List.cons_append, matchToks, hx, if_true]
      apply star_complete _ _ v [x] s (fun y hy => hv y (List.mem_cons_of_mem _ hy))
      simpa using ih

end regexp

theorem mustCompile_paramPattern : MustCompile paramPattern = some paramRe := by decide

theorem quoteMeta_eq_nil (s : Str) : QuoteMeta s = [] ↔ s = [] := by
  cases s with
  | nil => simp [QuoteMeta]
  | cons c cs => by_cases hc : c ∈ special <;> simp [QuoteMeta, hc]

theorem addSegment_eq (st : AddState) (seg : Str) :
    addSegment paramRe st seg =
      { pattern := st.pattern ++ segPattern seg
        paramNames := st.paramNames ++ segNames seg
        isMoreSpecific := st.isMoreSpecific || segSpecific seg } := by
  unfold addSegment segPattern segNames segSpecific segKind
  cases hm : paramRe.FindStringSubmatch seg with
  | some m =>
    simp [quoteMeta_eq_nil]
    rw [Bool.or_comm]
  | none =>
    by_cases hs : seg = ['*']
    · simp [hs]
    · simp [hs]

theorem foldl_addSegment (segs : List Str) (st : AddState) :
    segs.foldl (addSegment paramRe) st =
      { pattern := st.pattern ++ (segs.map segPattern).flatten
        paramNames := st.paramNames ++ (segs.map segNames).flatten
        isMoreSpecific := st.isMoreSpecific || segs.any segSpecific } := by
  induction segs generalizing st with
  | nil => simp
  | cons seg segs ih =>
    rw [List.foldl_cons, ih, addSegment_eq]
    simp [Bool.or_assoc]

theorem addLoop_eq (path : Str) :
    addLoop paramRe path =
      { pattern := '^' :: ((segments path).map segPattern).flatten
        paramNames := declaredNames path
        isMoreSpecific := MoreSpecific path } := by
  unfold addLoop
  simp only [foldl_addSegment]
  simp [segments, declaredNames, MoreSpecific]

theorem parseItems_segPattern (seg : Str) (r : Str) :
    parseItems (segPattern seg ++ '/' :: r) =
      (parseItems ('/' :: r)).map (segToks seg ++ ·) := by
  have hslash : ∃ q r2, '/' :: r = q :: r2 ∧ q ≠ '?' := ⟨'/', r, rfl, by decide⟩
  unfold segPattern segToks
  cases segKind seg with
  | param pre name suf =>
    simp only [List.append_assoc]
    have h1 : ∃ q r2, "([^/]+)".toList ++ (QuoteMeta suf ++ '/' :: r) = q :: r2 ∧ q ≠ '?' :=
      ⟨'(', _, rfl, by decide⟩
    obtain ⟨q, r2, hq, hq2⟩ := quoteMeta_append_head pre _ h1
    show parseItems ('/' :: (QuoteMeta pre ++ ("([^/]+)".toList ++ (QuoteMeta suf ++ '/' :: r)))) = _
    rw [hq, parseItems_slash q r2 hq2, ← hq, parseItems_quoteMeta _ _ h1, parseItems_capSeg,
      parseItems_quoteMeta _ _ hslash]
    simp [Option.map_map, Function.comp_def]
  | wildcard =>
    show parseItems ('/' :: '(' :: ("(.+)".toList.tail ++ '/' :: r)) = _
    rw [parseItems_slash _ _ (by decide)]
    show Option.map _ (parseItems ("(.+)".toList ++ '/' :: r)) = _
    rw [parseItems_capAny]
    simp [Option.map_map, Function.comp_def]
  | literal =>
    obtain ⟨q, r2, hq, hq2⟩ := quoteMeta_append_head seg _ hslash
    show parseItems ('/' :: (QuoteMeta seg ++ '/' :: r)) = _
    rw [hq, parseItems_slash q r2 hq2, ← hq, parseItems_quoteMeta _ _ hslash]
    simp [Option.map_map, Function.comp_def]

theorem parseItems_segments (segs : List Str) :
    parseItems ((segs.map segPattern).flatten ++ "/?$".toList) =
      some ((segs.map segToks).flatten ++ [Tok.opt '/']) := by
  induction segs with
  | nil => simpa using parseItems_end
  | cons seg segs ih =>
    have hhead : ∃ r, (segs.map segPattern).flatten ++ "/?$".toList = '/' :: r := by
      cases segs with
      | nil => exact ⟨_, rfl⟩
      | cons s2 ss => exact ⟨_, by simp [segPattern]; rfl⟩
    obtain ⟨r, hr⟩ := hhead
    simp only [List.map_cons, List.flatten_cons, List.append_assoc]
    rw [hr, parseItems_segPattern, ← hr, ih]
    simp

theorem router_add_eq {H : Type} (r : router H) (method path : Str) (h : H) :
    r.add method path h =
      some (if MoreSpecific path then { routes := entry method path h :: r.routes }
            else { routes := r.routes ++ [entry method path h] }) := by
  unfold router.add
  rw [mustCompile_paramPattern]
  simp only [addLoop_eq]
  have : MustCompile ('^' :: ((segments path).map segPattern).flatten ++ "/?$".toList)
      = some ⟨routeToks path⟩ := by
    show (if '^' = '^' then (parseItems _).map Regexp.mk else none) = _
    rw [if_pos rfl]
    show Option.map Regexp.mk (parseItems (((segments path).map segPattern).flatten ++ "/?$".toList)) = _
    rw [parseItems_segments]
    rfl
  rw [this]
  by_cases hs : MoreSpecific path = true
  · simp [hs, entry]
  · simp [hs, entry]

theorem router_add_empty {H : Type} (method path : Str) (h : H) :
    router.add { routes := [] } method path h = some { routes := [entry method path h] } := by
  rw [router_add_eq]
  by_cases hs : MoreSpecific path = true <;> simp [hs]

theorem compiledRoute_eq {H : Type} (method path : Str) (h : H) :
    compiledRoute method path h = some (entry method path h) := by
  simp [compiledRoute, router_add_empty]

theorem pathMatches_eq (path p : Str) :
    PathMatches path p = (⟨routeToks path⟩ : Regexp).MatchString p := by
  simp [PathMatches, compiledRoute_eq, entry]

theorem pathParams_eq {H : Type} (method path : Str) (h : H) (p : Str) :
    pathParams path p = routeParams (entry method path h) p := by
  simp [pathParams, compiledRoute_eq, entry, routeParams]

theorem registerAll_eq {H : Type} (regs : List (Registration H)) (r : router H) :
    registerAll r regs =
      some { routes := ((regs.filter fun reg => MoreSpecific reg.path).reverse.map
                          Registration.entry) ++ r.routes ++
                       ((regs.filter fun reg => !MoreSpecific reg.path).map
                          Registration.entry) } := by
  induction regs generalizing r with
  | nil => simp [registerAll]
  | cons reg regs ih =>
    rw [registerAll, router_add_eq]
    simp only [Option.some_bind]
    rw [ih]
    by_cases hs : MoreSpecific reg.path = true
    · simp [hs, Registration.entry]
    · simp [hs, Registration.entry]

theorem serveRoutes_cons_skip {H : Type} (method path : Str) (rt : route H)
    (rest : List (route H)) (h : rt.regex.MatchString path = false) :
    serveRoutes method path (rt :: rest) = serveRoutes method path rest := by
  simp [serveRoutes, h]

theorem serveRoutes_cons_hit {H : Type} (method path : Str) (rt : route H)
    (rest : List (route H)) (h : rt.regex.MatchString path = true) (hm : rt.method = method) :
    serveRoutes method path (rt :: rest) = [Effect.call rt.handler (routeParams rt path)] := by
  unfold Regexp.MatchString at h
  obtain ⟨caps, hc⟩ := Option.isSome_iff_exists.mp h
  simp [serveRoutes, Regexp.MatchString, Regexp.FindStringSubmatch, hc, hm, routeParams]

theorem serveRoutes_cons_miss {H : Type} (method path : Str) (rt : route H)
    (rest : List (route H)) (h : rt.regex.MatchString path = true) (hm : rt.method ≠ method) :
    serveRoutes method path (rt :: rest) =
      [Effect.writeHeader 404, Effect.write "404 Not Found !".toList]
        ++ serveRoutes method path rest := by
  unfold Regexp.MatchString at h
  obtain ⟨caps, hc⟩ := Option.isSome_iff_exists.mp h
  simp [serveRoutes, Regexp.MatchString, Regexp.FindStringSubmatch, hc, hm]

theorem serveRoutes_append_skip {H : Type} (method path : Str) (l1 l2 : List (route H))
    (h : ∀ rt ∈ l1, rt.regex.MatchString path = false) :
    serveRoutes method path (l1 ++ l2) = serveRoutes method path l2 := by
  induction l1 with
  | nil => rfl
  | cons rt l1 ih =>
    rw [List.cons_append, serveRoutes_cons_skip _ _ _ _ (h rt (List.mem_cons_self _ _))]
    exact ih fun rt1 h1 => h rt1 (List.mem_cons_of_mem _ h1)

theorem mem_call_serveRoutes {H : Type} (method path : Str) (h : H) (ps : Params) :
    ∀ routes : List (route H), Effect.call h ps ∈ serveRoutes method path routes ↔
      ∃ rt, lookup method path routes = some rt ∧ h = rt.handler ∧ ps = routeParams rt path := by
  intro routes
  induction routes with
  | nil => simp [serveRoutes, lookup]
  | cons rt rest ih =>
    by_cases hp : rt.regex.MatchString path = true
    · by_cases hm : rt.method = method
      · rw [serveRoutes_cons_hit _ _ _ _ hp hm]
        simp [lookup, hp, hm]
      · rw [serveRoutes_cons_miss _ _ _ _ hp hm]
        have : lookup method path (rt :: rest) = lookup method path rest := by
          simp [lookup, hm]
        rw [this, ← ih]
        simp
    · have hp2 : rt.regex.MatchString path = false := by simpa using hp
      rw [serveRoutes_cons_skip _ _ _ _ hp2]
      have : lookup method path (rt :: rest) = lookup method path rest := by
        simp [lookup, hp2]
      rw [this, ih]

theorem serveBody_not_static {H : Type} (w : World) (app : App H) (req : Request)
    (hs : servedStatic w app.public req = false) :
    serveBody w app req = probe app.public req ++ serveRoutes req.Method req.Path app.router.routes := by
  simp only [servedStatic, staticPath] at hs
  simp only [serveBody, probe, staticPath]
  by_cases hp : (app.public.inUse && strings.HasPrefix req.Path (app.public.url ++ "/".toList)) = true
  · rw [if_pos hp] at hs
    rw [if_pos hp, if_pos hp]
    simp only at hs
    simp [hs]
  · rw [if_neg hp, if_neg hp]
    rfl

theorem serveHTTP_not_static {H : Type} (w : World) (app : App H) (req : Request)
    (ho : req.Method ≠ http.MethodOptions) (hs : servedStatic w app.public req = false) :
    app.ServeHTTP w req =
      corsHeaders app.CORS req ++ probe app.public req ++
        serveRoutes req.Method req.Path app.router.routes := by
  unfold App.ServeHTTP
  rw [if_neg ho, serveBody_not_static w app req hs, List.append_assoc]

theorem mem_call_serveBody {H : Type} (w : World) (app : App H) (req : Request) (h : H)
    (ps : Params) (hc : Effect.call h ps ∈ serveBody w app req) :
    Effect.call h ps ∈ serveRoutes req.Method req.Path app.router.routes := by
  simp only [serveBody] at hc
  by_cases hp : (app.public.inUse && strings.HasPrefix req.Path (app.public.url ++ "/".toList)) = true
  · rw [if_pos hp] at hc
    by_cases hst : w.stat (app.public.dir ++ strings.Replace req.Path app.public.url [] 1) = true
    · rw [if_pos hst] at hc
      simp only [List.mem_append, List.mem_cons, List.mem_singleton, reduceCtorEq, false_or,
        or_false, List.not_mem_nil] at hc
      split at hc <;> simp at hc
    · rw [if_neg hst] at hc
      simpa using hc
  · rw [if_neg hp] at hc
    exact hc

theorem mem_call_serveHTTP {H : Type} (w : World) (app : App H) (req : Request) (h : H)
    (ps : Params) (hc : Effect.call h ps ∈ app.ServeHTTP w req) :
    Effect.call h ps ∈ serveRoutes req.Method req.Path app.router.routes := by
  unfold App.ServeHTTP at hc
  rcases List.mem_append.mp hc with h1 | h1
  · unfold corsHeaders at h1
    by_cases ha : app.CORS.AllowCredentials = true <;> simp [ha] at h1
  · by_cases ho : req.Method = http.MethodOptions
    · simp [ho] at h1
    · rw [if_neg ho] at h1
      exact mem_call_serveBody w app req h ps h1

theorem registration_entry_match {H : Type} (reg : Registration H) (p : Str) :
    reg.entry.regex.MatchString p = PathMatches reg.path p :=
  (pathMatches_eq reg.path p).symm

theorem serveRoutes_skip_regs {H : Type} (method p : Str) (L : List (Registration H))
    (rest : List (route H)) (hL : ∀ reg ∈ L, PathMatches reg.path p = false) :
    serveRoutes method p (L.map Registration.entry ++ rest) = serveRoutes method p rest := by
  apply serveRoutes_append_skip
  intro rt hrt
  obtain ⟨reg, hreg, rfl⟩ := List.mem_map.mp hrt
  exact (registration_entry_match reg p).trans (hL reg hreg)

theorem lookup_specific {H : Type} (regs : List (Registration H)) (method p : Str)
    (r : router H) (hr : registerAll { routes := [] } regs = some r)
    (hspec : ∃ reg ∈ regs, MoreSpecific reg.path = true ∧ reg.method = method ∧
      PathMatches reg.path p = true) :
    ∃ reg ∈ regs, lookup method p r.routes = some reg.entry ∧ MoreSpecific reg.path = true ∧
      reg.method = method ∧ PathMatches reg.path p = true := by
  rw [registerAll_eq] at hr
  simp only [Option.some.injEq] at hr
  subst hr
  obtain ⟨reg0, hreg0, hs0, hm0, hp0⟩ := hspec
  simp only [lookup, List.append_nil, List.find?_append]
  have hsome : (((regs.filter fun reg => MoreSpecific reg.path).reverse.map
      Registration.entry).find? fun rt => rt.regex.MatchString p && decide (rt.method = method)).isSome
      = true := by
    rw [List.find?_isSome]
    refine ⟨reg0.entry, ?_, ?_⟩
    · apply List.mem_map_of_mem
      simp [hreg0, hs0]
    · have h1 : reg0.entry.regex.MatchString p = true := by
        rw [registration_entry_match]; exact hp0
      have h2 : reg0.entry.method = method := hm0
      simp [h1, h2]
  obtain ⟨rt, hrt⟩ := Option.isSome_iff_exists.mp hsome
  rw [hrt]
  show ∃ reg ∈ regs, some rt = some reg.entry ∧ _
  have hmem := List.mem_of_find?_eq_some hrt
  have hpred := List.find?_some hrt
  obtain ⟨reg, hreg, rfl⟩ := List.mem_map.mp hmem
  simp only [List.mem_reverse, List.mem_filter] at hreg
  simp only [Bool.and_eq_true, decide_eq_true_eq] at hpred
  rw [registration_entry_match] at hpred
  exact ⟨reg, hreg.1, rfl, hreg.2, hpred.2, hpred.1⟩

/-- C1 (as amended): for every sequence of registrations and every request
whose method and path are matched by at least one more-specific route, every
handler that ServeHTTP invokes is the handler of a more-specific registration
that matches the method and the path; one is invoked unless the request is a
preflight or is served statically; and when the handlers of the registrations
are pairwise distinct, no handler of a less-specific registration is invoked. -/
theorem specific_tier_wins {H : Type} (regs : List (Registration H)) (w : World)
    (pub : Public) (c : cors) (req : Request)
    (hspec : ∃ reg ∈ regs, MoreSpecific reg.path = true ∧ reg.method = req.Method ∧
      PathMatches reg.path req.Path = true) :
    ∃ r, registerAll { routes := [] } regs = some r ∧
      (∀ h ps, Effect.call h ps ∈ App.ServeHTTP w { router := r, public := pub, CORS := c } req →
        ∃ reg ∈ regs, reg.handler = h ∧ MoreSpecific reg.path = true ∧
          reg.method = req.Method ∧ PathMatches reg.path req.Path = true ∧
          ps = pathParams reg.path req.Path) ∧
      (req.Method ≠ http.MethodOptions → servedStatic w pub req = false →
        ∃ h ps, Effect.call h ps ∈
          App.ServeHTTP w { router := r, public := pub, CORS := c } req) ∧
      ((regs.map fun reg => reg.handler).Nodup →
        ∀ reg ∈ regs, MoreSpecific reg.path = false → ∀ ps, Effect.call reg.handler ps ∉
          App.ServeHTTP w { router := r, public := pub, CORS := c } req) := by
  obtain ⟨r, hr⟩ : ∃ r, registerAll { routes := [] } regs = some r := ⟨_, registerAll_eq regs _⟩
  obtain ⟨reg1, hreg1, hlook, hs1, hm1, hp1⟩ := lookup_specific regs req.Method req.Path r hr hspec
  have hcalls : ∀ h ps,
      Effect.call h ps ∈ App.ServeHTTP w { router := r, public := pub, CORS := c } req →
      h = reg1.handler ∧ ps = pathParams reg1.path req.Path := by
    intro h ps hc
    have h1 := mem_call_serveHTTP w _ req h ps hc
    obtain ⟨rt, hrt, hh, hps⟩ := (mem_call_serveRoutes req.Method req.Path h ps _).mp h1
    simp only at hrt
    rw [hlook] at hrt
    simp only [Option.some.injEq] at hrt
    subst hrt
    exact ⟨hh, hps.trans (pathParams_eq _ _ _ _).symm⟩
  refine ⟨r, hr, ?_, ?_, ?_⟩
  · intro h ps hc
    obtain ⟨hh, hps⟩ := hcalls h ps hc
    exact ⟨reg1, hreg1, hh.symm, hs1, hm1, hp1, hps⟩
  · intro ho hst
    refine ⟨reg1.handler, pathParams reg1.path req.Path, ?_⟩
    rw [serveHTTP_not_static w _ req ho hst]
    apply List.mem_append_right
    exact (mem_call_serveRoutes req.Method req.Path _ _ _).mpr
      ⟨reg1.entry, hlook, rfl, pathParams_eq _ _ _ _⟩
  · intro hnd reg hreg hns ps hc
    obtain ⟨hh, _⟩ := hcalls _ ps hc
    have : reg = reg1 := List.inj_on_of_nodup_map hnd hreg hreg1 hh
    subst this
    rw [hs1] at hns
    exact absurd hns (by decide)

/-- Witness of C1.  The theorem at GET /users/admin with the less-specific
route GET /* (which matches the path) registered first: the handler invoked
is that of a more-specific route, never handler 0 of GET /*; the same holds
with GET /* registered last.  The example of the claim: GET /users/42 invokes
the handler of /users/[id] with id = 42 in either order of the two routes,
and GET /users/admin invokes the handler of /users/admin when /users/[id] is
registered first. -/
theorem specific_tier_wins_witness :
    (∃ reg ∈ wildFirstRegs, MoreSpecific reg.path = true ∧ reg.method = "GET".toList ∧
      PathMatches reg.path "/users/admin".toList = true) ∧
    (∃ r, registerAll { routes := [] } wildFirstRegs = some r ∧
      (∀ h ps, Effect.call h ps ∈ App.ServeHTTP emptyWorld
          { router := r, public := (New Nat).public, CORS := (New Nat).CORS }
          { Method := "GET".toList, Path := "/users/admin".toList, Origin := [] } →
        ∃ reg ∈ wildFirstRegs, reg.handler = h ∧ MoreSpecific reg.path = true ∧
          reg.method = "GET".toList ∧ PathMatches reg.path "/users/admin".toList = true ∧
          ps = pathParams reg.path "/users/admin".toList) ∧
      (∃ h ps, Effect.call h ps ∈ App.ServeHTTP emptyWorld
          { router := r, public := (New Nat).public, CORS := (New Nat).CORS }
          { Method := "GET".toList, Path := "/users/admin".toList, Origin := [] }) ∧
      (∀ reg ∈ wildFirstRegs, MoreSpecific reg.path = false →
        ∀ ps, Effect.call reg.handler ps ∉
          App.ServeHTTP emptyWorld
            { router := r, public := (New Nat).public, CORS := (New Nat).CORS }
            { Method := "GET".toList, Path := "/users/admin".toList, Origin := [] })) ∧
    (MoreSpecific "/*".toList = false ∧ PathMatches "/*".toList "/users/admin".toList = true ∧
      PathMatches "/*".toList "/users/42".toList = true) ∧
    respond wildFirstRegs "GET".toList "/users/admin".toList = some [Effect.call 2 []] ∧
    respond wildLastRegs "GET".toList "/users/admin".toList = some [Effect.call 2 []] ∧
    respond wildFirstRegs "GET".toList "/users/42".toList =
      some [Effect.call 1 [("id".toList, "42".toList)]] ∧
    respond usersRegs "GET".toList "/users/42".toList =
      some [Effect.call 1 [("id".toList, "42".toList)]] ∧
    respond usersRegsRev "GET".toList "/users/42".toList =
      some [Effect.call 1 [("id".toList, "42".toList)]] ∧
    respond usersRegs "GET".toList "/users/admin".toList = some [Effect.call 2 []] :=
  ⟨by decide,
   (specific_tier_wins wildFirstRegs emptyWorld (New Nat).public (New Nat).CORS
     { Method := "GET".toList, Path := "/users/admin".toList, Origin := [] } (by decide)).imp
     fun _ hr => ⟨hr.1, hr.2.1, hr.2.2.1 (by decide) (by decide), hr.2.2.2 (by decide)⟩,
   by decide, by decide, by decide, by decide, by decide, by decide, by decide⟩

/-- Counterexample to C1 as stated: with GET /users/admin registered before
GET /users/[id], the request GET /users/admin invokes the handler of
/users/[id] (handler 1, with id = admin), not the handler of /users/admin
(handler 2). -/
theorem literal_registered_first_loses :
    ∃ app, appOf usersRegsRev = some app ∧
      app.ServeHTTP emptyWorld
          { Method := "GET".toList, Path := "/users/admin".toList, Origin := [] } =
        corsHeaders app.CORS
          { Method := "GET".toList, Path := "/users/admin".toList, Origin := [] } ++
          [Effect.call 1 [("id".toList, "admin".toList)]] ∧
      Effect.call 2 [] ∉ app.ServeHTTP emptyWorld
          { Method := "GET".toList, Path := "/users/admin".toList, Origin := [] } :=
  ⟨_, rfl, by decide, by decide⟩

theorem serveRoutes_regs_hit {H : Type} (method p : Str) (L : List (Registration H))
    (reg : Registration H) (rest : List (route H))
    (hL : ∀ x ∈ L, PathMatches x.path p = false)
    (hp : PathMatches reg.path p = true) (hm : reg.method = method) :
    serveRoutes method p (L.map Registration.entry ++ reg.entry :: rest) =
      [Effect.call reg.handler (pathParams reg.path p)] := by
  rw [serveRoutes_skip_regs method p L _ hL, pathParams_eq reg.method reg.path reg.handler]
  exact serveRoutes_cons_hit method p reg.entry rest
    ((registration_entry_match reg p).trans hp) hm

/-- C4 (as amended): two registrations of the same tier with the method of the
request, both matching its path, no other registration matching it.  When
both are less-specific, ServeHTTP invokes the handler of the one registered
first; when both are more-specific, it invokes the handler of the one
registered last. -/
theorem tier_registration_order {H : Type} (A B C : List (Registration H))
    (r1 r2 : Registration H) (w : World) (pub : Public) (c : cors) (req : Request)
    (htier : MoreSpecific r1.path = MoreSpecific r2.path)
    (hm1 : r1.method = req.Method) (hm2 : r2.method = req.Method)
    (hp1 : PathMatches r1.path req.Path = true) (hp2 : PathMatches r2.path req.Path = true)
    (hno : ∀ reg ∈ A ++ B ++ C, PathMatches reg.path req.Path = false)
    (ho : req.Method ≠ http.MethodOptions) (hst : servedStatic w pub req = false) :
    ∃ r, registerAll { routes := [] } (A ++ r1 :: (B ++ r2 :: C)) = some r ∧
      App.ServeHTTP w { router := r, public := pub, CORS := c } req =
        corsHeaders c req ++ probe pub req ++
          [if MoreSpecific r1.path = true then
             Effect.call r2.handler (pathParams r2.path req.Path)
           else Effect.call r1.handler (pathParams r1.path req.Path)] := by
  refine ⟨_, registerAll_eq _ _, ?_⟩
  rw [serveHTTP_not_static w _ req ho hst]
  congr 1
  simp only [List.append_nil]
  by_cases h1 : MoreSpecific r1.path = true
  · have h2 : MoreSpecific r2.path = true := htier ▸ h1
    rw [if_pos h1]
    have hS : ((A ++ r1 :: (B ++ r2 :: C)).filter fun reg => MoreSpecific reg.path).reverse =
        (C.filter fun reg => MoreSpecific reg.path).reverse ++
          r2 :: ((A ++ r1 :: B).filter fun reg => MoreSpecific reg.path).reverse := by
      simp [List.filter_append, List.filter_cons, h1, h2]
    rw [hS, List.map_append, List.map_cons, List.append_assoc, List.cons_append]
    apply serveRoutes_regs_hit _ _ _ _ _ _ hp2 hm2
    intro x hx
    exact hno x (by simp [(List.mem_filter.mp (List.mem_reverse.mp hx)).1])
  · have h1f : MoreSpecific r1.path = false := by simpa using h1
    have h2 : MoreSpecific r2.path = false := htier ▸ h1f
    rw [if_neg h1]
    rw [serveRoutes_skip_regs]
    · have hN : (A ++ r1 :: (B ++ r2 :: C)).filter (fun reg => !MoreSpecific reg.path) =
          A.filter (fun reg => !MoreSpecific reg.path) ++
            r1 :: ((B ++ r2 :: C).filter fun reg => !MoreSpecific reg.path) := by
        simp [List.filter_append, List.filter_cons, h1f]
      rw [hN, List.map_append, List.map_cons]
      apply serveRoutes_regs_hit _ _ _ _ _ _ hp1 hm1
      intro x hx
      exact hno x (by simp [(List.mem_filter.mp hx).1])
    · intro x hx
      simp only [List.mem_reverse, List.mem_filter, List.mem_append, List.mem_cons] at hx
      obtain ⟨hmem, hs⟩ := hx
      rcases hmem with ha | rfl | hb | rfl | hc
      · exact hno x (by simp [ha])
      · rw [h1f] at hs; exact absurd hs (by decide)
      · exact hno x (by simp [hb])
      · rw [h2] at hs; exact absurd hs (by decide)
      · exact hno x (by simp [hc])

/-- Witness of C4: GET /[id] registered twice (a less-specific pattern),
request GET /x: the first registration is invoked, with id = x. -/
theorem tier_registration_order_witness :
    (∃ r, registerAll { routes := [] } twiceBare = some r ∧
      App.ServeHTTP emptyWorld { router := r, public := (New Nat).public, CORS := (New Nat).CORS }
          { Method := "GET".toList, Path := "/x".toList, Origin := [] } =
        corsHeaders (New Nat).CORS { Method := "GET".toList, Path := "/x".toList, Origin := [] } ++
          probe (New Nat).public { Method := "GET".toList, Path := "/x".toList, Origin := [] } ++
          [if MoreSpecific "/[id]".toList = true then
             Effect.call 2 (pathParams "/[id]".toList "/x".toList)
           else Effect.call 1 (pathParams "/[id]".toList "/x".toList)]) ∧
    MoreSpecific "/[id]".toList = false ∧
    pathParams "/[id]".toList "/x".toList = [("id".toList, "x".toList)] ∧
    respond twiceBare "GET".toList "/x".toList =
      some [Effect.call 1 [("id".toList, "x".toList)]] :=
  ⟨tier_registration_order [] [] [] ⟨"GET".toList, "/[id]".toList, 1⟩
      ⟨"GET".toList, "/[id]".toList, 2⟩ emptyWorld (New Nat).public (New Nat).CORS
      { Method := "GET".toList, Path := "/x".toList, Origin := [] }
      rfl rfl rfl (by decide) (by decide) (by simp) (by decide) (by decide),
    by decide, by decide, by decide⟩

/-- Counterexample to C4 as stated: GET /a registered twice (a more-specific
pattern); the request GET /a invokes the handler of the second registration. -/
theorem second_literal_registration_wins :
    ∃ app, appOf twiceLiteral = some app ∧
      app.ServeHTTP emptyWorld { Method := "GET".toList, Path := "/a".toList, Origin := [] } =
        corsHeaders app.CORS { Method := "GET".toList, Path := "/a".toList, Origin := [] } ++
          [Effect.call 2 []] ∧
      Effect.call 1 [] ∉
        app.ServeHTTP emptyWorld { Method := "GET".toList, Path := "/a".toList, Origin := [] } :=
  ⟨_, rfl, by decide, by decide⟩

/-- C2, the code at the failing input: after Post("/items") and Get("/items"),
the request POST /items makes ServeHTTP write the status 404 and the body
of the not-found answer itself before it invokes the handler of the POST
route. -/
theorem post_items_writes_404_before_handler :
    ∃ app, itemsApp = some app ∧
      app.ServeHTTP emptyWorld { Method := "POST".toList, Path := "/items".toList, Origin := [] } =
        corsHeaders app.CORS { Method := "POST".toList, Path := "/items".toList, Origin := [] } ++
          [Effect.writeHeader 404, Effect.write "404 Not Found !".toList, Effect.call 1 []] :=
  ⟨_, rfl, by decide⟩

/-- C3, the code at the failing inputs: with no route registered, ServeHTTP
writes no status and no body at all for GET /x; and with GET /a registered
twice, the request PUT /a, which no route matches, gets the status 404 and
the body written twice. -/
theorem no_route_not_one_404 :
    (New Nat).ServeHTTP emptyWorld { Method := "GET".toList, Path := "/x".toList, Origin := [] } =
      corsHeaders (New Nat).CORS { Method := "GET".toList, Path := "/x".toList, Origin := [] } ∧
    Effect.writeHeader 404 ∉
      (New Nat).ServeHTTP emptyWorld { Method := "GET".toList, Path := "/x".toList, Origin := [] } ∧
    ∃ app, appOf twiceLiteral = some app ∧
      app.ServeHTTP emptyWorld { Method := "PUT".toList, Path := "/a".toList, Origin := [] } =
        corsHeaders app.CORS { Method := "PUT".toList, Path := "/a".toList, Origin := [] } ++
          [Effect.writeHeader 404, Effect.write "404 Not Found !".toList,
           Effect.writeHeader 404, Effect.write "404 Not Found !".toList] :=
  ⟨by decide, by decide, _, rfl, by decide⟩

theorem mem_serveRoutes {H : Type} (method path : Str) (e : Effect H) :
    ∀ routes : List (route H), e ∈ serveRoutes method path routes →
      (∃ h ps, e = Effect.call h ps) ∨ e = Effect.writeHeader 404 ∨
        e = Effect.write "404 Not Found !".toList := by
  intro routes
  induction routes with
  | nil => intro h; simp [serveRoutes] at h
  | cons rt rest ih =>
    intro h
    by_cases hp : rt.regex.MatchString path = true
    · by_cases hm : rt.method = method
      · rw [serveRoutes_cons_hit _ _ _ _ hp hm] at h
        exact Or.inl ⟨_, _, List.mem_singleton.mp h⟩
      · rw [serveRoutes_cons_miss _ _ _ _ hp hm] at h
        rcases List.mem_append.mp h with h1 | h1
        · simp only [List.mem_cons, List.mem_singleton, List.not_mem_nil, or_false] at h1
          rcases h1 with h1 | h1
          · exact Or.inr (Or.inl h1)
          · exact Or.inr (Or.inr h1)
        · exact ih h1
    · rw [serveRoutes_cons_skip _ _ _ _ (by simpa using hp)] at h
      exact ih h

theorem mem_serveBody {H : Type} (w : World) (app : App H) (req : Request) (e : Effect H)
    (he : e ∈ serveBody w app req) :
    e ∈ serveRoutes req.Method req.Path app.router.routes ∨ (∃ f, e = Effect.stat f) ∨
      (∃ f, e = Effect.readFile f) ∨ (∃ m, e = Effect.setHeader "Content-Type".toList m) ∨
      (∃ d, e = Effect.write d) := by
  simp only [serveBody] at he
  by_cases hp : (app.public.inUse && strings.HasPrefix req.Path (app.public.url ++ "/".toList)) = true
  · rw [if_pos hp] at he
    by_cases hst : w.stat (app.public.dir ++ strings.Replace req.Path app.public.url [] 1) = true
    · rw [if_pos hst] at he
      rcases List.mem_append.mp he with h1 | h1
      · rcases List.mem_append.mp h1 with h2 | h2
        · simp only [List.mem_cons, List.mem_singleton, List.not_mem_nil, or_false] at h2
          rcases h2 with h2 | h2
          · exact Or.inr (Or.inl ⟨_, h2⟩)
          · exact Or.inr (Or.inr (Or.inl ⟨_, h2⟩))
        · split at h2
          · exact Or.inr (Or.inr (Or.inr (Or.inl ⟨_, List.mem_singleton.mp h2⟩)))
          · simp at h2
      · exact Or.inr (Or.inr (Or.inr (Or.inr ⟨_, List.mem_singleton.mp h1⟩)))
    · rw [if_neg hst] at he
      rcases List.mem_cons.mp he with h1 | h1
      · exact Or.inr (Or.inl ⟨_, h1⟩)
      · exact Or.inl h1
  · rw [if_neg hp] at he
    exact Or.inl he

theorem serveHTTP_eq_cons {H : Type} (w : World) (app : App H) (req : Request) :
    app.ServeHTTP w req =
      Effect.setHeader "Access-Control-Allow-Origin".toList
        (if req.Origin ∈ app.CORS.AllowedOrigins then req.Origin else [])
        :: afterOrigin w app req := by
  simp [App.ServeHTTP, corsHeaders, afterOrigin, slices.Contains]

theorem afterOrigin_congr {H : Type} (w : World) (app : App H) (req : Request)
    (origins : List Str) (origin : Str) :
    afterOrigin w { app with CORS := { app.CORS with AllowedOrigins := origins } }
        { req with Origin := origin } = afterOrigin w app req := rfl

theorem mem_afterOrigin {H : Type} (w : World) (app : App H) (req : Request) (e : Effect H)
    (he : e ∈ afterOrigin w app req) :
    e = Effect.setHeader "Access-Control-Allow-Methods".toList
          (strings.Join app.CORS.AllowedMethods ", ".toList) ∨
    e = Effect.setHeader "Access-Control-Allow-Headers".toList
          (strings.Join app.CORS.AllowedHeaders ", ".toList) ∨
    e = Effect.setHeader "Access-Control-Allow-Credentials".toList "true".toList ∨
    e = Effect.writeHeader http.StatusNoContent ∨
    e ∈ serveBody w app req := by
  unfold afterOrigin at he
  rcases List.mem_append.mp he with h1 | h1
  · rcases List.mem_append.mp h1 with h2 | h2
    · simp only [List.mem_cons, List.mem_singleton, List.not_mem_nil, or_false] at h2
      rcases h2 with h2 | h2
      · exact Or.inl h2
      · exact Or.inr (Or.inl h2)
    · split at h2
      · exact Or.inr (Or.inr (Or.inl (List.mem_singleton.mp h2)))
      · simp at h2
  · split at h1
    · exact Or.inr (Or.inr (Or.inr (Or.inl (List.mem_singleton.mp h1))))
    · exact Or.inr (Or.inr (Or.inr (Or.inr h1)))

/-- C8: ServeHTTP first sets Access-Control-Allow-Origin to the Origin of the
request when that value is an entry of AllowedOrigins and to the empty string
otherwise; it sets that header only once, never writes the status 403, and
everything it does afterwards is the same for every Origin and every
allow-list, so that a disallowed origin does not stop routing. -/
theorem cors_origin_echo {H : Type} (w : World) (app : App H) (req : Request) :
    ∃ rest : List (Effect H),
      app.ServeHTTP w req =
        Effect.setHeader "Access-Control-Allow-Origin".toList
          (if req.Origin ∈ app.CORS.AllowedOrigins then req.Origin else []) :: rest ∧
      (∀ v, Effect.setHeader "Access-Control-Allow-Origin".toList v ∉ rest) ∧
      Effect.writeHeader 403 ∉ rest ∧
      (∀ (origins : List Str) (origin : Str),
        App.ServeHTTP w { app with CORS := { app.CORS with AllowedOrigins := origins } }
            { req with Origin := origin } =
          Effect.setHeader "Access-Control-Allow-Origin".toList
            (if origin ∈ origins then origin else []) :: rest) := by
  refine ⟨afterOrigin w app req, serveHTTP_eq_cons w app req, ?_, ?_, ?_⟩
  · intro v hv
    rcases mem_afterOrigin w app req _ hv with h | h | h | h | h
    · injection h with hk _; exact absurd hk (by decide)
    · injection h with hk _; exact absurd hk (by decide)
    · injection h with hk _; exact absurd hk (by decide)
    · simp at h
    · rcases mem_serveBody w app req _ h with h1 | ⟨f, h1⟩ | ⟨f, h1⟩ | ⟨m, h1⟩ | ⟨d, h1⟩
      · rcases mem_serveRoutes _ _ _ _ h1 with ⟨h2, ps, h3⟩ | h3 | h3 <;> simp at h3
      · simp at h1
      · simp at h1
      · injection h1 with hk _; exact absurd hk (by decide)
      · simp at h1
  · intro hv
    rcases mem_afterOrigin w app req _ hv with h | h | h | h | h
    · simp at h
    · simp at h
    · simp at h
    · simp [http.StatusNoContent] at h
    · rcases mem_serveBody w app req _ h with h1 | ⟨f, h1⟩ | ⟨f, h1⟩ | ⟨m, h1⟩ | ⟨d, h1⟩
      · rcases mem_serveRoutes _ _ _ _ h1 with ⟨h2, ps, h3⟩ | h3 | h3 <;> simp at h3
      · simp at h1
      · simp at h1
      · simp at h1
      · simp at h1
  · intro origins origin
    rw [serveHTTP_eq_cons, afterOrigin_congr]

/-- Witness of C8: the Origin http://evil.com against the allow-list
[http://good.com] gives the empty value, no status is written and nothing
else changes with respect to the allowed origin. -/
theorem cors_origin_echo_witness :
    goodOnly.ServeHTTP emptyWorld
        { Method := "GET".toList, Path := "/x".toList, Origin := "http://evil.com".toList } =
      Effect.setHeader "Access-Control-Allow-Origin".toList [] ::
        (goodOnly.ServeHTTP emptyWorld
          { Method := "GET".toList, Path := "/x".toList,
            Origin := "http://good.com".toList }).tail ∧
    (goodOnly.ServeHTTP emptyWorld
        { Method := "GET".toList, Path := "/x".toList,
          Origin := "http://good.com".toList }).head? =
      some (Effect.setHeader "Access-Control-Allow-Origin".toList "http://good.com".toList) := by
  obtain ⟨rest, h1, _, _, h4⟩ := cors_origin_echo emptyWorld goodOnly
    { Method := "GET".toList, Path := "/x".toList, Origin := "http://evil.com".toList }
  have e1 : (if "http://evil.com".toList ∈ goodOnly.CORS.AllowedOrigins then
      "http://evil.com".toList else ([] : Str)) = [] := by decide
  have e2 : (if "http://good.com".toList ∈ ["http://good.com".toList] then
      "http://good.com".toList else ([] : Str)) = "http://good.com".toList := by decide
  have h5 : goodOnly.ServeHTTP emptyWorld
      { Method := "GET".toList, Path := "/x".toList, Origin := "http://good.com".toList } =
      Effect.setHeader "Access-Control-Allow-Origin".toList "http://good.com".toList :: rest :=
    (h4 ["http://good.com".toList] "http://good.com".toList).trans
      (congrArg (fun v => Effect.setHeader "Access-Control-Allow-Origin".toList v :: rest) e2)
  have h6 : goodOnly.ServeHTTP emptyWorld
      { Method := "GET".toList, Path := "/x".toList, Origin := "http://evil.com".toList } =
      Effect.setHeader "Access-Control-Allow-Origin".toList [] :: rest :=
    h1.trans (congrArg (fun v => Effect.setHeader "Access-Control-Allow-Origin".toList v :: rest) e1)
  rw [h5, h6]
  exact ⟨rfl, rfl⟩

/-- C9: for a request whose method is OPTIONS, ServeHTTP does exactly this: it
sets Access-Control-Allow-Origin (the Origin when it is in the allow-list,
else the empty string), Access-Control-Allow-Methods and
Access-Control-Allow-Headers (the lists joined by a comma and a blank), and
Access-Control-Allow-Credentials: true when configured, and then writes the
status 204.  It writes no body, probes no file and invokes no handler,
whatever the routes and the static configuration. -/
theorem preflight_short_circuit {H : Type} (w : World) (app : App H) (path origin : Str) :
    app.ServeHTTP w { Method := "OPTIONS".toList, Path := path, Origin := origin } =
        [Effect.setHeader "Access-Control-Allow-Origin".toList
           (if origin ∈ app.CORS.AllowedOrigins then origin else []),
         Effect.setHeader "Access-Control-Allow-Methods".toList
           (", ".toList.intercalate app.CORS.AllowedMethods),
         Effect.setHeader "Access-Control-Allow-Headers".toList
           (", ".toList.intercalate app.CORS.AllowedHeaders)] ++
        (if app.CORS.AllowCredentials = true then
           [Effect.setHeader "Access-Control-Allow-Credentials".toList "true".toList]
         else []) ++
        [Effect.writeHeader 204] ∧
      (∀ e ∈ app.ServeHTTP w { Method := "OPTIONS".toList, Path := path, Origin := origin },
        (∀ d, e ≠ Effect.write d) ∧ (∀ f, e ≠ Effect.stat f) ∧ (∀ f, e ≠ Effect.readFile f) ∧
        (∀ h ps, e ≠ Effect.call h ps)) := by
  have heq : app.ServeHTTP w { Method := "OPTIONS".toList, Path := path, Origin := origin } =
        [Effect.setHeader "Access-Control-Allow-Origin".toList
           (if origin ∈ app.CORS.AllowedOrigins then origin else []),
         Effect.setHeader "Access-Control-Allow-Methods".toList
           (", ".toList.intercalate app.CORS.AllowedMethods),
         Effect.setHeader "Access-Control-Allow-Headers".toList
           (", ".toList.intercalate app.CORS.AllowedHeaders)] ++
        (if app.CORS.AllowCredentials = true then
           [Effect.setHeader "Access-Control-Allow-Credentials".toList "true".toList]
         else []) ++
        [Effect.writeHeader 204] := by
    unfold App.ServeHTTP
    rw [if_pos (show ({ Method := "OPTIONS".toList, Path := path, Origin := origin } :
      Request).Method = http.MethodOptions from rfl)]
    simp [corsHeaders, slices.Contains, strings.Join, http.StatusNoContent]
  refine ⟨heq, ?_⟩
  intro e he
  rw [heq] at he
  rcases List.mem_append.mp he with h1 | h1
  · rcases List.mem_append.mp h1 with h2 | h2
    · simp only [List.mem_cons, List.mem_singleton, List.not_mem_nil, or_false] at h2
      rcases h2 with rfl | rfl | rfl <;> simp
    · split at h2
      · rw [List.mem_singleton.mp h2]
        simp
      · simp at h2
  · rw [List.mem_singleton.mp h1]
    simp

/-- Witness of C9: an OPTIONS request with an allowed Origin for a registered
path, with a static directory configured in which every file exists. -/
theorem preflight_short_circuit_witness :
    ∃ r, registerAll { routes := [] } usersRegs = some r ∧
      App.ServeHTTP { emptyWorld with stat := fun _ => true }
          { router := r, public := { url := "/users".toList, dir := "/srv".toList, inUse := true },
            CORS := goodOnly.CORS }
          { Method := "OPTIONS".toList, Path := "/users/admin".toList,
            Origin := "http://good.com".toList } =
        [Effect.setHeader "Access-Control-Allow-Origin".toList "http://good.com".toList,
         Effect.setHeader "Access-Control-Allow-Methods".toList "GET, POST, PUT, DELETE".toList,
         Effect.setHeader "Access-Control-Allow-Headers".toList
           "Content-Type, Authorization".toList,
         Effect.setHeader "Access-Control-Allow-Credentials".toList "true".toList,
         Effect.writeHeader 204] :=
  ⟨_, rfl, (preflight_short_circuit _ _ _ _).1.trans (by decide)⟩

namespace strings

theorem Split_ne_nil (s : Str) (sep : Char) : Split s sep ≠ [] := by
  cases s with
  | nil => simp [Split]
  | cons c cs =>
    rw [Split]
    by_cases hc : c = sep
    · simp [hc]
    · simp only [hc, if_false]
      cases Split cs sep <;> simp

theorem not_mem_of_mem_Split (sep : Char) :
    ∀ (s : Str) (seg : Str), seg ∈ Split s sep → sep ∉ seg := by
  intro s
  induction s with
  | nil => intro seg h; simp [Split] at h; simp [h]
  | cons c cs ih =>
    intro seg h
    rw [Split] at h
    by_cases hc : c = sep
    · simp only [hc, if_true, List.mem_cons] at h
      rcases h with rfl | h
      · simp
      · exact ih seg h
    · simp only [hc, if_false] at h
      cases hsp : Split cs sep with
      | nil => exact absurd hsp (Split_ne_nil cs sep)
      | cons s0 ss =>
        rw [hsp] at h ih
        simp only [List.mem_cons] at h
        rcases h with rfl | h
        · have h0 := ih s0 (List.mem_cons_self _ _)
          simp only [List.mem_cons, not_or]
          exact ⟨fun hh => hc hh.symm, h0⟩
        · exact ih seg (List.mem_cons_of_mem _ h)

end strings

namespace regexp

theorem matches_nil_iff {s : Str} {cs : List Str} : Matches [] s cs ↔ s = [] ∧ cs = [] := by
  constructor
  · intro h; cases h; exact ⟨rfl, rfl⟩
  · rintro ⟨rfl, rfl⟩; exact Matches.nil

theorem matches_lit_iff {c : Char} {ts : List Tok} {s : Str} {cs : List Str} :
    Matches (.lit c :: ts) s cs ↔ ∃ s1, s = c :: s1 ∧ Matches ts s1 cs := by
  constructor
  · intro h; cases h with | lit h1 => exact ⟨_, rfl, h1⟩
  · rintro ⟨s1, rfl, h1⟩; exact Matches.lit h1

theorem matches_opt_iff {c : Char} {ts : List Tok} {s : Str} {cs : List Str} :
    Matches (.opt c :: ts) s cs ↔ Matches ts s cs ∨ ∃ s1, s = c :: s1 ∧ Matches ts s1 cs := by
  constructor
  · intro h
    cases h with
    | optSome h1 => exact Or.inr ⟨_, rfl, h1⟩
    | optNone h1 => exact Or.inl h1
  · rintro (h1 | ⟨s1, rfl, h1⟩)
    · exact Matches.optNone h1
    · exact Matches.optSome h1

theorem matches_capPlus_iff {k : CharSet} {ts : List Tok} {s : Str} {cs : List Str} :
    Matches (.capPlus k :: ts) s cs ↔
      ∃ v s1 cs1, s = v ++ s1 ∧ cs = v :: cs1 ∧ v ≠ [] ∧ (∀ x ∈ v, k.test x = true) ∧
        Matches ts s1 cs1 := by
  constructor
  · intro h; cases h with | plus hne hv h1 => exact ⟨_, _, _, rfl, rfl, hne, hv, h1⟩
  · rintro ⟨v, s1, cs1, rfl, rfl, hne, hv, h1⟩; exact Matches.plus hne hv h1

theorem matches_capStar_iff {k : CharSet} {ts : List Tok} {s : Str} {cs : List Str} :
    Matches (.capStar k :: ts) s cs ↔
      ∃ v s1 cs1, s = v ++ s1 ∧ cs = v :: cs1 ∧ (∀ x ∈ v, k.test x = true) ∧
        Matches ts s1 cs1 := by
  constructor
  · intro h; cases h with | star hv h1 => exact ⟨_, _, _, rfl, rfl, hv, h1⟩
  · rintro ⟨v, s1, cs1, rfl, rfl, hv, h1⟩; exact Matches.star hv h1

theorem matches_lits_iff (l : Str) {ts : List Tok} {s : Str} {cs : List Str} :
    Matches (lits l ++ ts) s cs ↔ ∃ s1, s = l ++ s1 ∧ Matches ts s1 cs := by
  induction l generalizing s with
  | nil => simp [lits]
  | cons c l ih =>
    have : lits (c :: l) ++ ts = Tok.lit c :: (lits l ++ ts) := by simp [lits]
    rw [this, matches_lit_iff]
    constructor
    · rintro ⟨s1, rfl, h1⟩
      obtain ⟨s2, rfl, h2⟩ := ih.mp h1
      exact ⟨s2, rfl, h2⟩
    · rintro ⟨s1, rfl, h1⟩
      exact ⟨l ++ s1, rfl, ih.mpr ⟨s1, rfl, h1⟩⟩

theorem matches_optEnd_iff {c : Char} {s : Str} {cs : List Str} :
    Matches [.opt c] s cs ↔ cs = [] ∧ (s = [] ∨ s = [c]) := by
  rw [matches_opt_iff]
  simp only [matches_nil_iff]
  constructor
  · rintro (⟨rfl, rfl⟩ | ⟨s1, rfl, rfl, rfl⟩)
    · exact ⟨rfl, Or.inl rfl⟩
    · exact ⟨rfl, Or.inr rfl⟩
  · rintro ⟨rfl, rfl | rfl⟩
    · exact Or.inl ⟨rfl, rfl⟩
    · exact Or.inr ⟨[], rfl, rfl, rfl⟩

/-- What matchToks returns is a declarative match, and a declarative match
that is the only one is what matchToks returns. -/
theorem matchToks_eq_of_unique {ts : List Tok} {s : Str} {cs : List Str}
    (h : Matches ts s cs) (huniq : ∀ cs1, Matches ts s cs1 → cs1 = cs) :
    matchToks ts s = some cs := by
  obtain ⟨cs1, h1⟩ := Option.isSome_iff_exists.mp (matchToks_complete h)
  rw [h1, huniq cs1 (matchToks_sound _ _ _ h1)]

end regexp

theorem findStringSubmatch_paramRe {seg : Str} {m : List Str}
    (h : paramRe.FindStringSubmatch seg = some m) :
    ∃ pre name suf : Str, m = [seg, pre, name, suf] ∧
      seg = pre ++ '[' :: name ++ ']' :: suf ∧ name ≠ [] ∧ ']' ∉ name := by
  unfold Regexp.FindStringSubmatch at h
  simp only [Option.map_eq_some'] at h
  obtain ⟨caps, hc, rfl⟩ := h
  have hm := matchToks_sound _ _ _ hc
  simp only [paramRe] at hm
  rw [matches_capStar_iff] at hm
  obtain ⟨pre, s1, cs1, rfl, rfl, _, hm⟩ := hm
  rw [matches_lit_iff] at hm
  obtain ⟨s2, rfl, hm⟩ := hm
  rw [matches_capPlus_iff] at hm
  obtain ⟨name, s3, cs3, rfl, rfl, hne, hname, hm⟩ := hm
  rw [matches_lit_iff] at hm
  obtain ⟨s4, rfl, hm⟩ := hm
  rw [matches_capStar_iff] at hm
  obtain ⟨suf, s5, cs5, rfl, rfl, _, hm⟩ := hm
  rw [matches_nil_iff] at hm
  obtain ⟨rfl, rfl⟩ := hm
  refine ⟨pre, name, suf, by simp, by simp, hne, ?_⟩
  intro hmem
  have := hname _ hmem
  simp [CharSet.test] at this

theorem segKind_param {seg pre name suf : Str} (h : segKind seg = .param pre name suf) :
    seg = pre ++ '[' :: name ++ ']' :: suf ∧ name ≠ [] ∧ ']' ∉ name := by
  unfold segKind at h
  cases hm : paramRe.FindStringSubmatch seg with
  | some m =>
    rw [hm] at h
    obtain ⟨p, n, s, rfl, hseg, hne, hn⟩ := findStringSubmatch_paramRe hm
    simp only [List.getD_cons_succ, List.getD_cons_zero, SegKind.param.injEq] at h
    obtain ⟨rfl, rfl, rfl⟩ := h
    exact ⟨hseg, hne, hn⟩
  | none =>
    rw [hm] at h
    simp only at h
    split at h <;> cases h

theorem segKind_wildcard {seg : Str} (h : segKind seg = .wildcard) : seg = "*".toList := by
  unfold segKind at h
  cases hm : paramRe.FindStringSubmatch seg with
  | some m => rw [hm] at h; cases h
  | none =>
    rw [hm] at h
    simp only at h
    split at h
    · assumption
    · cases h

theorem segKind_literal_of_no_shape {seg : Str} (h1 : ¬ HasParamShape seg)
    (h2 : seg ≠ "*".toList) : segKind seg = .literal := by
  unfold segKind
  cases hm : paramRe.FindStringSubmatch seg with
  | some m =>
    obtain ⟨p, n, s, _, hseg, hne, hn⟩ := findStringSubmatch_paramRe hm
    exact absurd ⟨p, n, s, hseg, hne, hn⟩ h1
  | none => exact if_neg h2

theorem slash_not_mem_segment {path seg : Str} (h : seg ∈ segments path) : '/' ∉ seg :=
  strings.not_mem_of_mem_Split '/' _ seg h

theorem segToks_literal {seg : Str} (h : segKind seg = .literal) :
    segToks seg = lits ('/' :: seg) := by
  simp [segToks, h, lits]

theorem routeToks_eq (path : Str) : routeToks path = segsToks (segments path) := rfl

theorem segsToks_cons (seg : Str) (segs : List Str) :
    segsToks (seg :: segs) = segToks seg ++ segsToks segs := by
  simp [segsToks]

theorem segsToks_head {segs : List Str} {s : Str} {cs : List Str}
    (h : Matches (segsToks segs) s cs) : s = [] ∨ ∃ t, s = '/' :: t := by
  cases segs with
  | nil =>
    obtain ⟨_, h1 | h1⟩ := matches_optEnd_iff.mp h
    · exact Or.inl h1
    · exact Or.inr ⟨[], h1⟩
  | cons seg segs =>
    rw [segsToks_cons] at h
    obtain ⟨s1, hs, _⟩ := matches_lit_iff.mp h
    exact Or.inr ⟨s1, hs⟩

theorem append_eq_of_slash_free : ∀ (a b x y : Str), '/' ∉ a → '/' ∉ b →
    (x = [] ∨ ∃ t, x = '/' :: t) → (y = [] ∨ ∃ t, y = '/' :: t) →
    a ++ x = b ++ y → a = b ∧ x = y := by
  intro a
  induction a with
  | nil =>
    intro b x y _ hb hx hy h
    cases b with
    | nil => exact ⟨rfl, by simpa using h⟩
    | cons d b =>
      exfalso
      simp only [List.nil_append, List.cons_append] at h
      rcases hx with rfl | ⟨t, rfl⟩
      · cases h
      · simp only [List.cons.injEq] at h
        exact hb (List.mem_cons.mpr (Or.inl h.1))
  | cons c a ih =>
    intro b x y ha hb hx hy h
    cases b with
    | nil =>
      exfalso
      simp only [List.nil_append, List.cons_append] at h
      rcases hy with rfl | ⟨t, rfl⟩
      · cases h
      · simp only [List.cons.injEq] at h
        exact ha (List.mem_cons.mpr (Or.inl h.1.symm))
    | cons d b =>
      simp only [List.cons_append, List.cons.injEq] at h
      obtain ⟨hab, hxy⟩ := ih b x y (fun hm => ha (List.mem_cons_of_mem _ hm))
        (fun hm => hb (List.mem_cons_of_mem _ hm)) hx hy h.2
      exact ⟨by rw [h.1, hab], hxy⟩

theorem matches_segToks_param {seg pre name suf : Str} (hk : segKind seg = .param pre name suf)
    (R : List Tok) (s : Str) (cs : List Str) :
    Matches (segToks seg ++ R) s cs ↔
      ∃ v s1 cs1, s = '/' :: (pre ++ (v ++ (suf ++ s1))) ∧ cs = v :: cs1 ∧ v ≠ [] ∧ '/' ∉ v ∧
        Matches R s1 cs1 := by
  have htoks : segToks seg ++ R =
      Tok.lit '/' :: (lits pre ++ (Tok.capPlus (.notChar '/') :: (lits suf ++ R))) := by
    simp [segToks, hk]
  rw [htoks, matches_lit_iff]
  constructor
  · rintro ⟨s1, rfl, h1⟩
    obtain ⟨s2, rfl, h2⟩ := (matches_lits_iff pre).mp h1
    obtain ⟨v, s3, cs1, rfl, rfl, hne, hv, h3⟩ := matches_capPlus_iff.mp h2
    obtain ⟨s4, rfl, h4⟩ := (matches_lits_iff suf).mp h3
    refine ⟨v, s4, cs1, rfl, rfl, hne, ?_, h4⟩
    intro hm
    have := hv _ hm
    simp [CharSet.test] at this
  · rintro ⟨v, s1, cs1, rfl, rfl, hne, hv, h1⟩
    refine ⟨_, rfl, (matches_lits_iff pre).mpr ⟨_, rfl, matches_capPlus_iff.mpr
      ⟨v, _, cs1, rfl, rfl, hne, ?_, (matches_lits_iff suf).mpr ⟨s1, rfl, h1⟩⟩⟩⟩
    intro x hx
    have : x ≠ '/' := fun hh => hv (hh ▸ hx)
    simp [CharSet.test, this]

theorem matches_segToks_literal {seg : Str} (hk : segKind seg = .literal)
    (R : List Tok) (s : Str) (cs : List Str) :
    Matches (segToks seg ++ R) s cs ↔ ∃ s1, s = '/' :: (seg ++ s1) ∧ Matches R s1 cs := by
  rw [segToks_literal hk]
  exact matches_lits_iff ('/' :: seg)

theorem segsToks_unique : ∀ (segs : List Str), (∀ seg ∈ segs, '/' ∉ seg) →
    (∀ seg ∈ segs, seg ≠ "*".toList) →
    ∀ (s : Str) (c1 c2 : List Str), Matches (segsToks segs) s c1 →
      Matches (segsToks segs) s c2 → c1 = c2 := by
  intro segs
  induction segs with
  | nil =>
    intro _ _ s c1 c2 h1 h2
    rw [(matches_optEnd_iff.mp h1).1, (matches_optEnd_iff.mp h2).1]
  | cons seg segs ih =>
    intro hsl hw s c1 c2 h1 h2
    have ih1 := ih (fun x hx => hsl x (List.mem_cons_of_mem _ hx))
      (fun x hx => hw x (List.mem_cons_of_mem _ hx))
    have hseg : '/' ∉ seg := hsl seg (List.mem_cons_self _ _)
    rw [segsToks_cons] at h1 h2
    cases hk : segKind seg with
    | param pre name suf =>
      obtain ⟨hshape, _, _⟩ := segKind_param hk
      have hpre : '/' ∉ pre := fun hm => hseg (by rw [hshape]; simp [hm])
      have hsuf : '/' ∉ suf := fun hm => hseg (by rw [hshape]; simp [hm])
      obtain ⟨v1, s1, d1, hs1, rfl, _, hv1, hm1⟩ := (matches_segToks_param hk _ _ _).mp h1
      obtain ⟨v2, s2, d2, hs2, rfl, _, hv2, hm2⟩ := (matches_segToks_param hk _ _ _).mp h2
      rw [hs1] at hs2
      simp only [List.cons.injEq, true_and, List.append_cancel_left_eq] at hs2
      rw [← List.append_assoc, ← List.append_assoc] at hs2
      obtain ⟨hvs, hss⟩ := append_eq_of_slash_free (v1 ++ suf) (v2 ++ suf) s1 s2
        (by simp [hv1, hsuf]) (by simp [hv2, hsuf]) (segsToks_head hm1) (segsToks_head hm2) hs2
      have hv : v1 = v2 := List.append_cancel_right hvs
      subst hv hss
      rw [ih1 _ _ _ hm1 hm2]
    | wildcard =>
      exact absurd (segKind_wildcard hk) (hw seg (List.mem_cons_self _ _))
    | literal =>
      obtain ⟨s1, hs1, hm1⟩ := (matches_segToks_literal hk _ _ _).mp h1
      obtain ⟨s2, hs2, hm2⟩ := (matches_segToks_literal hk _ _ _).mp h2
      rw [hs1] at hs2
      simp only [List.cons.injEq, true_and, List.append_cancel_left_eq] at hs2
      subst hs2
      exact ih1 _ _ _ hm1 hm2

theorem matches_append_optEnd (c : Char) : ∀ (ts : List Tok) (p : Str) (cs : List Str),
    Matches (ts ++ [Tok.opt c]) p cs → p.getLast? ≠ some c →
      Matches (ts ++ [Tok.opt c]) (p ++ [c]) cs := by
  intro ts
  induction ts with
  | nil =>
    intro p cs h hend
    obtain ⟨rfl, h1 | h1⟩ := matches_optEnd_iff.mp h
    · subst h1; exact matches_optEnd_iff.mpr ⟨rfl, Or.inr rfl⟩
    · subst h1; simp at hend
  | cons t ts ih =>
    intro p cs h hend
    have hlast : ∀ (v s1 : Str), (v ++ s1).getLast? ≠ some c → s1.getLast? ≠ some c := by
      intro v s1 hh
      cases s1 with
      | nil => simp
      | cons y ys => simpa [List.getLast?_append] using hh
    cases t with
    | lit d =>
      obtain ⟨s1, rfl, h1⟩ := matches_lit_iff.mp h
      exact matches_lit_iff.mpr ⟨_, rfl, ih _ _ h1 (hlast [d] s1 hend)⟩
    | opt d =>
      rcases matches_opt_iff.mp h with h1 | ⟨s1, rfl, h1⟩
      · exact matches_opt_iff.mpr (Or.inl (ih _ _ h1 hend))
      · exact matches_opt_iff.mpr (Or.inr ⟨_, rfl, ih _ _ h1 (hlast [d] s1 hend)⟩)
    | capStar k =>
      obtain ⟨v, s1, cs1, rfl, rfl, hv, h1⟩ := matches_capStar_iff.mp h
      exact matches_capStar_iff.mpr ⟨v, _, cs1, by simp, rfl, hv, ih _ _ h1 (hlast v s1 hend)⟩
    | capPlus k =>
      obtain ⟨v, s1, cs1, rfl, rfl, hne, hv, h1⟩ := matches_capPlus_iff.mp h
      exact matches_capPlus_iff.mpr
        ⟨v, _, cs1, by simp, rfl, hne, hv, ih _ _ h1 (hlast v s1 hend)⟩

theorem fillParams_whole (a b : Str) (caps : List Str) :
    ∀ (names : List Str) (i : Nat) (ps : Params),
      fillParams (a :: caps) i names ps = fillParams (b :: caps) i names ps := by
  intro names
  induction names with
  | nil => intro i ps; rfl
  | cons n names ih =>
    intro i ps
    simp only [fillParams, List.length_cons, List.getD_cons_succ]
    exact ih _ _

theorem findStringSubmatch_of_matchToks {ts : List Tok} {p : Str} {caps : List Str}
    (h : matchToks ts p = some caps) :
    (⟨ts⟩ : Regexp).FindStringSubmatch p = some (p :: caps) := by
  simp [Regexp.FindStringSubmatch, h]

theorem matchString_of_matchToks {ts : List Tok} {p : Str} {caps : List Str}
    (h : matchToks ts p = some caps) : (⟨ts⟩ : Regexp).MatchString p = true := by
  simp [Regexp.MatchString, h]

theorem serveRoutes_single {H : Type} (m p q : Str) (rt : route H) (caps : List Str)
    (hp : matchToks rt.regex.toks p = some caps) (hq : matchToks rt.regex.toks q = some caps) :
    serveRoutes m q [rt] = serveRoutes m p [rt] := by
  have h1 : rt.regex.MatchString p = true := by simp [Regexp.MatchString, hp]
  have h2 : rt.regex.MatchString q = true := by simp [Regexp.MatchString, hq]
  by_cases hm : rt.method = m
  · rw [serveRoutes_cons_hit _ _ _ _ h1 hm, serveRoutes_cons_hit _ _ _ _ h2 hm]
    simp only [routeParams, Regexp.FindStringSubmatch, hp, hq, Option.map_some', Option.getD_some]
    rw [fillParams_whole q p]
  · rw [serveRoutes_cons_miss _ _ _ _ h1 hm, serveRoutes_cons_miss _ _ _ _ h2 hm]
    rfl

/-- C7: for a pattern without wildcard segment and a path p that does not end
in a slash, if the route compiled from the pattern matches p then it matches
p followed by a slash as well, with the same captures and the same parameter
map, so that the loop over the routes does the same for both paths. -/
theorem trailing_slash_tolerance {H : Type} (method path : Str) (h : H) (p : Str)
    (hw : "*".toList ∉ segments path) (hend : p.getLast? ≠ some '/')
    (hmatch : PathMatches path p = true) :
    ∃ rt : route H, router.add { routes := [] } method path h = some { routes := [rt] } ∧
      rt.regex.MatchString p = true ∧ rt.regex.MatchString (p ++ ['/']) = true ∧
      (rt.regex.FindStringSubmatch (p ++ ['/'])).map List.tail =
        (rt.regex.FindStringSubmatch p).map List.tail ∧
      routeParams rt (p ++ ['/']) = routeParams rt p ∧
      (∀ m, serveRoutes m (p ++ ['/']) [rt] = serveRoutes m p [rt]) := by
  rw [pathMatches_eq] at hmatch
  refine ⟨entry method path h, router_add_empty method path h, hmatch, ?_⟩
  obtain ⟨caps, hc⟩ := Option.isSome_iff_exists.mp hmatch
  have hm1 : Matches (routeToks path) p caps := matchToks_sound _ _ _ hc
  have hm2 : Matches (routeToks path) (p ++ ['/']) caps :=
    matches_append_optEnd '/' _ p caps hm1 hend
  have hq : matchToks (routeToks path) (p ++ ['/']) = some caps := by
    apply matchToks_eq_of_unique hm2
    intro cs1 h1
    exact segsToks_unique (segments path) (fun seg hs => slash_not_mem_segment hs)
      (fun seg hs hh => hw (hh ▸ hs)) _ _ _ h1 hm2
  have hc1 : matchToks (entry method path h).regex.toks p = some caps := hc
  have hq1 : matchToks (entry method path h).regex.toks (p ++ ['/']) = some caps := hq
  refine ⟨matchString_of_matchToks hq, ?_, ?_, fun m => serveRoutes_single m p _ _ caps hc1 hq1⟩
  · simp [Regexp.FindStringSubmatch, hc1, hq1]
  · simp only [routeParams, Regexp.FindStringSubmatch, hc1, hq1, Option.map_some',
      Option.getD_some]
    rw [fillParams_whole (p ++ ['/']) p]

/-- Witness of C7: /items/5 and /items/5/ against the route registered as
/items/[id]; both give id = 5. -/
theorem trailing_slash_tolerance_witness :
    ∃ rt : route Nat,
      router.add { routes := [] } "GET".toList "/items/[id]".toList 3 = some { routes := [rt] } ∧
      rt.regex.MatchString "/items/5".toList = true ∧
      rt.regex.MatchString ("/items/5".toList ++ ['/']) = true ∧
      (rt.regex.FindStringSubmatch ("/items/5".toList ++ ['/'])).map List.tail =
        (rt.regex.FindStringSubmatch "/items/5".toList).map List.tail ∧
      routeParams rt ("/items/5".toList ++ ['/']) = routeParams rt "/items/5".toList ∧
      (∀ m, serveRoutes m ("/items/5".toList ++ ['/']) [rt] =
        serveRoutes m "/items/5".toList [rt]) ∧
      routeParams rt "/items/5/".toList = [("id".toList, "5".toList)] :=
  (trailing_slash_tolerance "GET".toList "/items/[id]".toList 3 "/items/5".toList
    (by decide) (by decide) (by decide)).imp fun rt hrt =>
    ⟨hrt.1, hrt.2.1, hrt.2.2.1, hrt.2.2.2.1, hrt.2.2.2.2.1, hrt.2.2.2.2.2, by
      have h1 : (some { routes := [rt] } : Option (router Nat)) =
          some { routes := [entry "GET".toList "/items/[id]".toList 3] } :=
        hrt.1.symm.trans (router_add_empty _ _ _)
      simp only [Option.some.injEq, router.mk.injEq, List.cons.injEq, and_true] at h1
      subst h1
      decide⟩

theorem params_get_set_self (m : Params) (k v : Str) :
    Params.get (Params.set m k v) k = some v := by
  simp [Params.get, Params.set, List.lookup]

theorem lookup_filter_ne (k k1 : Str) (hne : k1 ≠ k) : ∀ m : Params,
    List.lookup k1 (m.filter fun kv => kv.1 != k) = List.lookup k1 m := by
  intro m
  induction m with
  | nil => rfl
  | cons kv m ih =>
    obtain ⟨a, b⟩ := kv
    by_cases ha : a = k
    · subst ha
      have : (k1 == a) = false := by simpa using hne
      simp [List.filter_cons, List.lookup, this, ih]
    · have h1 : (a != k) = true := by simpa using ha
      simp only [List.filter_cons, h1, if_true, List.lookup]
      rw [ih]

theorem params_get_set_ne (m : Params) (k v k1 : Str) (hne : k1 ≠ k) :
    Params.get (Params.set m k v) k1 = Params.get m k1 := by
  have : (k1 == k) = false := by simpa using hne
  simp only [Params.get, Params.set, List.lookup, this]
  exact lookup_filter_ne k k1 hne m

theorem fillParams_get_not_mem (m : List Str) (k : Str) : ∀ (names : List Str) (i : Nat)
    (ps : Params), k ∉ names → Params.get (fillParams m i names ps) k = Params.get ps k := by
  intro names
  induction names with
  | nil => intro i ps _; rfl
  | cons n names ih =>
    intro i ps hk
    have hkn : k ≠ n := fun h => hk (h ▸ List.mem_cons_self _ _)
    rw [fillParams, ih _ _ (fun h => hk (List.mem_cons_of_mem _ h))]
    split
    · exact params_get_set_ne _ _ _ _ hkn
    · rfl

theorem getD_append_length (done : List Str) (v : Str) (vs : List Str) :
    (done ++ v :: vs).getD done.length [] = v := by
  induction done with
  | nil => rfl
  | cons d done ih => simpa using ih

theorem fillParams_get_zip (whole : Str) : ∀ (names vals done : List Str) (ps : Params),
    names.Nodup → names.length = vals.length →
    ∀ nv ∈ names.zip vals,
      Params.get (fillParams (whole :: (done ++ vals)) done.length names ps) nv.1 = some nv.2 := by
  intro names
  induction names with
  | nil => intro vals done ps _ _ nv hnv; simp at hnv
  | cons n names ih =>
    intro vals done ps hnd hlen nv hnv
    cases vals with
    | nil => simp at hlen
    | cons v vs =>
      have hlt : done.length + 1 < (whole :: (done ++ v :: vs)).length := by simp
      have hget : (whole :: (done ++ v :: vs)).getD (done.length + 1) [] = v := by
        rw [List.getD_cons_succ]
        exact getD_append_length done v vs
      rw [fillParams, if_pos hlt, hget]
      have hnn : n ∉ names := (List.nodup_cons.mp hnd).1
      simp only [List.zip_cons_cons, List.mem_cons] at hnv
      rcases hnv with rfl | hnv
      · rw [fillParams_get_not_mem _ _ _ _ _ hnn]
        exact params_get_set_self _ _ _
      · have := ih vs (done ++ [v]) (Params.set ps n v) (List.nodup_cons.mp hnd).2
          (by simpa using hlen) nv hnv
        simpa using this

theorem numSubexp_append (a b : List Tok) :
    (⟨a ++ b⟩ : Regexp).NumSubexp = (⟨a⟩ : Regexp).NumSubexp + (⟨b⟩ : Regexp).NumSubexp := by
  simp [Regexp.NumSubexp, List.filter_append]

theorem numSubexp_lits (l : Str) : (⟨lits l⟩ : Regexp).NumSubexp = 0 := by
  induction l with
  | nil => rfl
  | cons c l ih =>
    simp only [Regexp.NumSubexp, lits, List.map_cons] at ih ⊢
    rw [List.filter_cons]
    simp [ih]

theorem numSubexp_segToks (seg : Str) :
    (⟨segToks seg⟩ : Regexp).NumSubexp = (segNames seg).length := by
  unfold segToks segNames
  cases segKind seg with
  | param pre name suf =>
    have h : Tok.lit '/' :: (lits pre ++ [Tok.capPlus (.notChar '/')] ++ lits suf) =
        lits ('/' :: pre) ++ ([Tok.capPlus (.notChar '/')] ++ lits suf) := by simp [lits]
    simp only [h, numSubexp_append, numSubexp_lits]
    rfl
  | wildcard => rfl
  | literal => exact numSubexp_lits ('/' :: seg)

theorem numSubexp_segsToks (segs : List Str) :
    (⟨segsToks segs⟩ : Regexp).NumSubexp = ((segs.map segNames).flatten).length := by
  induction segs with
  | nil => rfl
  | cons seg segs ih =>
    rw [segsToks_cons, numSubexp_append, numSubexp_segToks, ih]
    simp

theorem matches_fillSegments (t : Str) (ht : t = [] ∨ t = ['/']) :
    ∀ (segs : List Str) (vals : List Str),
    (∀ seg ∈ segs, seg ≠ "*".toList) →
    vals.length = ((segs.map segNames).flatten).length →
    (∀ v ∈ vals, v ≠ [] ∧ '/' ∉ v) →
    Matches (segsToks segs) (fillSegments segs vals ++ t) vals := by
  intro segs
  induction segs with
  | nil =>
    intro vals _ hlen _
    have : vals = [] := List.length_eq_zero.mp (by simpa using hlen)
    subst this
    exact matches_optEnd_iff.mpr ⟨rfl, by simpa [fillSegments] using ht⟩
  | cons seg segs ih =>
    intro vals hw hlen hv
    have hw1 : ∀ x ∈ segs, x ≠ "*".toList := fun x hx => hw x (List.mem_cons_of_mem _ hx)
    rw [segsToks_cons]
    cases hk : segKind seg with
    | param pre name suf =>
      have hn : segNames seg = [name] := by simp [segNames, hk]
      cases vals with
      | nil => simp [hn] at hlen
      | cons v vs =>
        have hfill : fillSegments (seg :: segs) (v :: vs) ++ t =
            '/' :: (pre ++ (v ++ (suf ++ (fillSegments segs vs ++ t)))) := by
          simp [fillSegments, hk]
        rw [hfill]
        refine (matches_segToks_param hk _ _ _).mpr
          ⟨v, _, vs, rfl, rfl, (hv v (List.mem_cons_self _ _)).1,
            (hv v (List.mem_cons_self _ _)).2, ?_⟩
        exact ih vs hw1 (by simpa [hn] using hlen) (fun x hx => hv x (List.mem_cons_of_mem _ hx))
    | wildcard =>
      exact absurd (segKind_wildcard hk) (hw seg (List.mem_cons_self _ _))
    | literal =>
      have hn : segNames seg = [] := by simp [segNames, hk]
      have hfill : fillSegments (seg :: segs) vals ++ t =
          '/' :: (seg ++ (fillSegments segs vals ++ t)) := by
        simp [fillSegments, hk]
      rw [hfill]
      exact (matches_segToks_literal hk _ _ _).mpr
        ⟨_, rfl, ih vals hw1 (by simpa [hn] using hlen) hv⟩

theorem param_extraction_segKind {H : Type} (method path : Str) (h : H) (vals : List Str) (p : Str)
    (w : World) (pub : Public) (c : cors) (origin : Str)
    (hkind : ∀ seg ∈ segments path, seg ≠ "*".toList)
    (hnodup : (declaredNames path).Nodup)
    (hlen : vals.length = (declaredNames path).length)
    (hvals : ∀ v ∈ vals, v ≠ [] ∧ '/' ∉ v)
    (hp : p = instantiate path vals ∨ p = instantiate path vals ++ ['/'])
    (ho : method ≠ http.MethodOptions)
    (hst : servedStatic w pub { Method := method, Path := p, Origin := origin } = false) :
    ∃ (rt : route H) (params : Params),
      router.add { routes := [] } method path h = some { routes := [rt] } ∧
      rt.regex.NumSubexp = (declaredNames path).length ∧
      rt.paramNames = declaredNames path ∧
      rt.regex.FindStringSubmatch p = some (p :: vals) ∧
      App.ServeHTTP w { router := { routes := [rt] }, public := pub, CORS := c }
          { Method := method, Path := p, Origin := origin } =
        corsHeaders c { Method := method, Path := p, Origin := origin } ++
          probe pub { Method := method, Path := p, Origin := origin } ++
          [Effect.call h params] ∧
      (∀ nv ∈ (declaredNames path).zip vals, Params.get params nv.1 = some nv.2) ∧
      (∀ k, k ∉ declaredNames path → Params.get params k = none) := by
  have hm : Matches (routeToks path) p vals := by
    rcases hp with rfl | rfl
    · have := matches_fillSegments [] (Or.inl rfl) (segments path) vals hkind hlen hvals
      simpa [instantiate] using this
    · exact matches_fillSegments ['/'] (Or.inr rfl) (segments path) vals hkind hlen hvals
  have hc : matchToks (routeToks path) p = some vals := by
    apply matchToks_eq_of_unique hm
    intro cs1 h1
    exact segsToks_unique (segments path) (fun seg hs => slash_not_mem_segment hs) hkind
      _ _ _ h1 hm
  have hfind : (entry method path h).regex.FindStringSubmatch p = some (p :: vals) :=
    findStringSubmatch_of_matchToks hc
  refine ⟨entry method path h, fillParams (p :: vals) 0 (declaredNames path) [],
    router_add_empty method path h, numSubexp_segsToks (segments path), rfl, hfind, ?_, ?_, ?_⟩
  · rw [serveHTTP_not_static w _ _ ho hst]
    congr 1
    have hms : (entry method path h).regex.MatchString p = true := matchString_of_matchToks hc
    have := serveRoutes_cons_hit method p (entry method path h) [] hms rfl
    simp only [routeParams, hfind, Option.getD_some] at this
    exact this
  · intro nv hnv
    exact fillParams_get_zip p (declaredNames path) vals [] [] hnodup hlen.symm nv hnv
  · intro k hk
    rw [fillParams_get_not_mem _ _ _ _ _ hk]
    rfl

/-- C6 (as amended): for every non-empty text r without line feed, the path
/files/ followed by r is matched by the route registered as /files/*, the
only capture is r, and ServeHTTP invokes the handler with a map whose only
entry sends the star to r. -/
theorem wildcard_captures_rest {H : Type} (method : Str) (h : H) (r : Str)
    (w : World) (pub : Public) (c : cors) (origin : Str)
    (hr : r ≠ []) (hnl : '\n' ∉ r)
    (ho : method ≠ http.MethodOptions)
    (hst : servedStatic w pub
      { Method := method, Path := "/files/".toList ++ r, Origin := origin } = false) :
    ∃ rt : route H,
      router.add { routes := [] } method "/files/*".toList h = some { routes := [rt] } ∧
      rt.regex.FindStringSubmatch ("/files/".toList ++ r) = some ["/files/".toList ++ r, r] ∧
      App.ServeHTTP w { router := { routes := [rt] }, public := pub, CORS := c }
          { Method := method, Path := "/files/".toList ++ r, Origin := origin } =
        corsHeaders c { Method := method, Path := "/files/".toList ++ r, Origin := origin } ++
          probe pub { Method := method, Path := "/files/".toList ++ r, Origin := origin } ++
          [Effect.call h [("*".toList, r)]] ∧
      Params.get [("*".toList, r)] "*".toList = some r := by
  have htoks : routeToks "/files/*".toList =
      lits "/files/".toList ++ [Tok.capPlus .dot, Tok.opt '/'] := by decide
  have hnames : declaredNames "/files/*".toList = ["*".toList] := by decide
  have hc : matchToks (routeToks "/files/*".toList) ("/files/".toList ++ r) = some [r] := by
    rw [htoks]
    cases r with
    | nil => exact absurd rfl hr
    | cons x xs =>
      have hx : CharSet.dot.test x = true := by
        have : x ≠ '\n' := fun hh => hnl (hh ▸ List.mem_cons_self _ _)
        simp [CharSet.test, this]
      have hxs : ∀ y ∈ xs, CharSet.dot.test y = true := by
        intro y hy
        have : y ≠ '\n' := fun hh => hnl (hh ▸ List.mem_cons_of_mem _ hy)
        simp [CharSet.test, this]
      have hstar : star CharSet.dot.test
          (fun cap rest => (matchToks [Tok.opt '/'] rest).map (cap :: ·)) [x] xs
            = some [x :: xs] :=
        star_greedy _ _ xs [x] _ hxs rfl
      simp [lits, matchToks, hx, hstar]
  have hfind : (entry method "/files/*".toList h).regex.FindStringSubmatch
      ("/files/".toList ++ r) = some [("/files/".toList ++ r), r] :=
    findStringSubmatch_of_matchToks hc
  refine ⟨entry method "/files/*".toList h, router_add_empty _ _ _, hfind, ?_, ?_⟩
  · rw [serveHTTP_not_static w _ _ ho hst]
    congr 1
    have hms : (entry method "/files/*".toList h).regex.MatchString ("/files/".toList ++ r)
        = true := matchString_of_matchToks hc
    have := serveRoutes_cons_hit method ("/files/".toList ++ r)
      (entry method "/files/*".toList h) [] hms rfl
    simp only [routeParams, hfind, Option.getD_some] at this
    rw [this]
    show [Effect.call h (fillParams _ 0 (declaredNames "/files/*".toList) [])] = _
    rw [hnames]
    rfl
  · simp [Params.get, List.lookup]

/-- Witness of C6: the path /files/a/b/c gives the star the value a/b/c. -/
theorem wildcard_captures_rest_witness :
    ∃ rt : route Nat,
      router.add { routes := [] } "GET".toList "/files/*".toList 9 = some { routes := [rt] } ∧
      rt.regex.FindStringSubmatch ("/files/".toList ++ "a/b/c".toList) =
        some ["/files/".toList ++ "a/b/c".toList, "a/b/c".toList] ∧
      App.ServeHTTP emptyWorld
          { router := { routes := [rt] }, public := (New Nat).public, CORS := (New Nat).CORS }
          { Method := "GET".toList, Path := "/files/".toList ++ "a/b/c".toList, Origin := [] } =
        corsHeaders (New Nat).CORS
          { Method := "GET".toList, Path := "/files/".toList ++ "a/b/c".toList, Origin := [] } ++
          probe (New Nat).public
          { Method := "GET".toList, Path := "/files/".toList ++ "a/b/c".toList, Origin := [] } ++
          [Effect.call 9 [("*".toList, "a/b/c".toList)]] ∧
      Params.get [("*".toList, "a/b/c".toList)] "*".toList = some "a/b/c".toList :=
  wildcard_captures_rest "GET".toList 9 "a/b/c".toList emptyWorld (New Nat).public
    (New Nat).CORS [] (by decide) (by decide) (by decide) (by decide)

/-- Counterexample to C6 as stated: for r = a, line feed, b, the path
/files/ followed by r is not matched by the route registered as /files/*, and
ServeHTTP invokes no handler (it does nothing after the CORS headers). -/
theorem wildcard_rejects_line_feed :
    ∃ app, appOf [(⟨"GET".toList, "/files/*".toList, 9⟩ : Registration Nat)] = some app ∧
      (∀ rt ∈ app.router.routes, rt.regex.MatchString "/files/a\nb".toList = false) ∧
      app.ServeHTTP emptyWorld
          { Method := "GET".toList, Path := "/files/a\nb".toList, Origin := [] } =
        corsHeaders app.CORS
          { Method := "GET".toList, Path := "/files/a\nb".toList, Origin := [] } :=
  ⟨_, rfl, by decide, by decide⟩

namespace regexp

theorem star_none {R : Type} (ok : Char → Bool) (k : Str → Str → Option R) (s acc : Str)
    (h : ∀ v rest, s = v ++ rest → (∀ x ∈ v, ok x = true) → k (acc ++ v) rest = none) :
    star ok k acc s = none := by
  cases hs : star ok k acc s with
  | none => rfl
  | some r =>
    obtain ⟨v, rest, hv, hok, hk⟩ := star_sound ok k s acc r hs
    rw [h v rest hv hok] at hk
    cases hk

/-- The repetition returns the result of the longest capture whose
continuation succeeds. -/
theorem star_first {R : Type} (ok : Char → Bool) (k : Str → Str → Option R) :
    ∀ (v acc rest : Str) (r : R), (∀ x ∈ v, ok x = true) → k (acc ++ v) rest = some r →
      (∀ v1 rest1, v ++ rest = v1 ++ rest1 → v.length < v1.length → (∀ x ∈ v1, ok x = true) →
        k (acc ++ v1) rest1 = none) →
      star ok k acc (v ++ rest) = some r := by
  intro v
  induction v with
  | nil =>
    intro acc rest r _ hk hlong
    cases rest with
    | nil => simpa [star] using hk
    | cons c cs =>
      rw [List.nil_append, star]
      by_cases hc : ok c = true
      · have hnone : star ok k (acc ++ [c]) cs = none := by
          apply star_none
          intro v2 rest2 hv2 hok2
          have := hlong (c :: v2) rest2 (by simp [hv2]) (by simp)
            (by
              intro x hx
              rcases List.mem_cons.mp hx with rfl | hx
              · exact hc
              · exact hok2 x hx)
          simpa using this
        simp only [hc, if_true, hnone]
        simpa using hk
      · simp only [hc]
        simpa using hk
  | cons x v ih =>
    intro acc rest r hok hk hlong
    have hx : ok x = true := hok x (List.mem_cons_self _ _)
    rw [List.cons_append, star]
    simp only [hx, if_true]
    rw [ih (acc ++ [x]) rest r (fun y hy => hok y (List.mem_cons_of_mem _ hy))
      (by simpa using hk)
      (by
        intro v1 rest1 heq hlen hok1
        have := hlong (x :: v1) rest1 (by simp [heq]) (by simpa using hlen)
          (by
            intro y hy
            rcases List.mem_cons.mp hy with rfl | hy
            · exact hx
            · exact hok1 y hy)
        simpa using this)]

end regexp

theorem append_cons_eq_of_not_mem (c : Char) : ∀ (a b x y : Str), c ∉ a → c ∉ b →
    a ++ c :: x = b ++ c :: y → a = b ∧ x = y := by
  intro a
  induction a with
  | nil =>
    intro b x y _ hb h
    cases b with
    | nil => exact ⟨rfl, by simpa using h⟩
    | cons d b =>
      simp only [List.nil_append, List.cons_append, List.cons.injEq] at h
      exact absurd (List.mem_cons.mpr (Or.inl h.1)) hb
  | cons e a ih =>
    intro b x y ha hb h
    cases b with
    | nil =>
      simp only [List.nil_append, List.cons_append, List.cons.injEq] at h
      exact absurd (List.mem_cons.mpr (Or.inl h.1.symm)) ha
    | cons d b =>
      simp only [List.cons_append, List.cons.injEq] at h
      obtain ⟨hab, hxy⟩ := ih b x y (fun hm => ha (List.mem_cons_of_mem _ hm))
        (fun hm => hb (List.mem_cons_of_mem _ hm)) h.2
      exact ⟨by rw [h.1, hab], hxy⟩

theorem dot_test_of_not_mem {s : Str} (h : '\n' ∉ s) : ∀ x ∈ s, CharSet.dot.test x = true := by
  intro x hx
  have : x ≠ '\n' := fun hh => h (hh ▸ hx)
  simp [CharSet.test, this]

theorem notChar_test_of_not_mem {c : Char} {s : Str} (h : c ∉ s) :
    ∀ x ∈ s, (CharSet.notChar c).test x = true := by
  intro x hx
  have : x ≠ c := fun hh => h (hh ▸ hx)
  simp [CharSet.test, this]

theorem matches_bracket_tail {t : Str} {cs : List Str}
    (h : Matches [Tok.lit '[', Tok.capPlus (.notChar ']'), Tok.lit ']', Tok.capStar .dot] t cs) :
    ∃ name suf : Str, t = '[' :: (name ++ ']' :: suf) ∧ cs = [name, suf] ∧ name ≠ [] ∧
      ']' ∉ name ∧ '\n' ∉ suf := by
  obtain ⟨s1, rfl, h1⟩ := matches_lit_iff.mp h
  obtain ⟨name, s2, cs2, rfl, rfl, hne, hname, h2⟩ := matches_capPlus_iff.mp h1
  obtain ⟨s3, rfl, h3⟩ := matches_lit_iff.mp h2
  obtain ⟨suf, s4, cs4, rfl, rfl, hsuf, h4⟩ := matches_capStar_iff.mp h3
  obtain ⟨rfl, rfl⟩ := matches_nil_iff.mp h4
  refine ⟨name, suf, by simp, rfl, hne, ?_, ?_⟩
  · intro hm
    have := hname _ hm
    simp [CharSet.test] at this
  · intro hm
    have := hsuf _ hm
    simp [CharSet.test] at this

theorem matchToks_bracket_tail (name suf : Str) (hne : name ≠ []) (hname : ']' ∉ name)
    (hsuf : '\n' ∉ suf) :
    matchToks [Tok.lit '[', Tok.capPlus (.notChar ']'), Tok.lit ']', Tok.capStar .dot]
      ('[' :: (name ++ ']' :: suf)) = some [name, suf] := by
  apply matchToks_eq_of_unique
  · exact matches_lit_iff.mpr ⟨_, rfl, matches_capPlus_iff.mpr
      ⟨name, _, [suf], rfl, rfl, hne, notChar_test_of_not_mem hname,
        matches_lit_iff.mpr ⟨_, rfl, matches_capStar_iff.mpr
          ⟨suf, [], [], by simp, rfl, dot_test_of_not_mem hsuf, Matches.nil⟩⟩⟩⟩
  · intro cs1 h1
    obtain ⟨name1, suf1, ht, rfl, _, hname1, _⟩ := matches_bracket_tail h1
    simp only [List.cons.injEq, true_and] at ht
    obtain ⟨h2, h3⟩ := append_cons_eq_of_not_mem ']' name name1 suf suf1 hname hname1 ht
    rw [h2, h3]

theorem no_later_bracket {pre name suf v1 name1 suf1 : Str}
    (heq : pre ++ '[' :: (name ++ ']' :: suf) = v1 ++ '[' :: (name1 ++ ']' :: suf1))
    (hlen : pre.length < v1.length) (hname : '[' ∉ name) (hne1 : name1 ≠ [])
    (hname1 : ']' ∉ name1) (hsuf : ¬ HasParamShape suf) : False := by
  rcases List.append_eq_append_iff.mp heq with ⟨a, hv1, hx⟩ | ⟨b, hpre, _⟩
  · cases a with
    | nil => simp [hv1] at hlen
    | cons c a1 =>
      simp only [List.cons_append, List.cons.injEq] at hx
      obtain ⟨_, hx⟩ := hx
      rcases List.append_eq_append_iff.mp hx with ⟨a2, ha1, hy⟩ | ⟨b2, hn, hy⟩
      · cases a2 with
        | nil =>
          simp only [List.nil_append, List.cons.injEq] at hy
          exact absurd hy.1 (by decide)
        | cons d a3 =>
          simp only [List.cons_append, List.cons.injEq] at hy
          exact hsuf ⟨a3, name1, suf1, by rw [hy.2]; simp, hne1, hname1⟩
      · cases b2 with
        | nil =>
          simp only [List.nil_append, List.cons.injEq] at hy
          exact absurd hy.1 (by decide)
        | cons d b3 =>
          simp only [List.cons_append, List.cons.injEq] at hy
          apply hname
          rw [hn, ← hy.1]
          simp
  · rw [hpre] at hlen
    simp at hlen

theorem matchToks_paramRe_shape (pre name suf : Str)
    (hwf : (SegSpec.param pre name suf).WellFormed) :
    matchToks paramRe.toks (pre ++ '[' :: (name ++ ']' :: suf)) = some [pre, name, suf] := by
  obtain ⟨⟨_, hne, hname2, hpre, hsuf⟩, hlast⟩ := hwf
  show star CharSet.dot.test
    (fun cap rest => (matchToks [Tok.lit '[', Tok.capPlus (.notChar ']'), Tok.lit ']',
      Tok.capStar .dot] rest).map (cap :: ·)) [] (pre ++ '[' :: (name ++ ']' :: suf)) = _
  apply star_first _ _ pre [] _ _ (dot_test_of_not_mem hpre)
  · simp [matchToks_bracket_tail name suf hne hname2 hsuf]
  · intro v1 rest1 heq hlen hok
    cases hm : matchToks [Tok.lit '[', Tok.capPlus (.notChar ']'), Tok.lit ']',
        Tok.capStar .dot] rest1 with
    | none => simp
    | some cs =>
      exfalso
      obtain ⟨name1, suf1, ht, _, hne1, hname1, hsuf1⟩ :=
        matches_bracket_tail (matchToks_sound _ _ _ hm)
      rw [ht] at heq
      have hv1 : '\n' ∉ v1 := by
        intro hmem
        have := hok _ hmem
        simp [CharSet.test] at this
      have := hlast v1 name1 suf1 ⟨heq, hne1, hname1, hv1, hsuf1⟩
      omega

theorem segKind_param_spec (pre name suf : Str)
    (hwf : (SegSpec.param pre name suf).WellFormed) :
    segKind (pre ++ '[' :: (name ++ ']' :: suf)) = .param pre name suf := by
  unfold segKind Regexp.FindStringSubmatch
  rw [matchToks_paramRe_shape pre name suf hwf]
  rfl

/-- A reading is the last one when the name holds no opening bracket and the
text after the brackets has not the shape of a parameter segment. -/
theorem wellFormed_param_of_simple (pre name suf : Str) (hne : name ≠ []) (hname : '[' ∉ name)
    (hname2 : ']' ∉ name) (hpre : '\n' ∉ pre) (hsuf : '\n' ∉ suf)
    (hshape : ¬ HasParamShape suf) : (SegSpec.param pre name suf).WellFormed := by
  refine ⟨⟨rfl, hne, hname2, hpre, hsuf⟩, ?_⟩
  rintro pre1 name1 suf1 ⟨heq, hne1, hname1, _, _⟩
  by_contra hlen
  exact no_later_bracket heq (by omega) hname hne1 hname1 hshape

theorem segKind_spec (sp : SegSpec) (hwf : sp.WellFormed) :
    segKind sp.text =
      match sp with
      | .literal _ => .literal
      | .param pre name suf => .param pre name suf := by
  cases sp with
  | literal t => exact segKind_literal_of_no_shape hwf.1 hwf.2
  | param pre name suf => exact segKind_param_spec pre name suf hwf

theorem spec_text_ne_star (sp : SegSpec) (hwf : sp.WellFormed) : sp.text ≠ "*".toList := by
  cases sp with
  | literal t => exact hwf.2
  | param pre name suf =>
    intro h
    have hk := segKind_param_spec pre name suf hwf
    have h2 : segKind "*".toList = .wildcard := by decide
    rw [show (SegSpec.param pre name suf).text = pre ++ '[' :: (name ++ ']' :: suf) from rfl] at h
    rw [h, h2] at hk
    cases hk

theorem segNames_spec (sp : SegSpec) (hwf : sp.WellFormed) : segNames sp.text = sp.names := by
  unfold segNames
  rw [segKind_spec sp hwf]
  cases sp <;> rfl

theorem flatten_segNames_specs (specs : List SegSpec) (hwf : ∀ sp ∈ specs, sp.WellFormed) :
    ((specs.map SegSpec.text).map segNames).flatten = (specs.map SegSpec.names).flatten := by
  induction specs with
  | nil => rfl
  | cons sp specs ih =>
    simp only [List.map_cons, List.flatten_cons]
    rw [segNames_spec sp (hwf sp (List.mem_cons_self _ _)),
      ih fun x hx => hwf x (List.mem_cons_of_mem _ hx)]

theorem fillSegments_specs : ∀ (specs : List SegSpec) (vals : List Str),
    (∀ sp ∈ specs, sp.WellFormed) →
    fillSegments (specs.map SegSpec.text) vals = fillSpecs specs vals := by
  intro specs
  induction specs with
  | nil => intro vals _; rfl
  | cons sp specs ih =>
    intro vals hwf
    have hk := segKind_spec sp (hwf sp (List.mem_cons_self _ _))
    have ih1 := fun vs => ih vs fun x hx => hwf x (List.mem_cons_of_mem _ hx)
    cases sp with
    | literal t =>
      have hk1 : segKind t = .literal := hk
      simp [fillSegments, fillSpecs, hk1, ih1, SegSpec.text]
    | param pre name suf =>
      have hk1 : segKind (pre ++ '[' :: (name ++ ']' :: suf)) = .param pre name suf := hk
      cases vals with
      | nil => simp [fillSegments, fillSpecs, hk1, ih1, SegSpec.text]
      | cons v vs => simp [fillSegments, fillSpecs, hk1, ih1, SegSpec.text]

theorem not_hasParamShape_of_not_mem {s : Str} (h : ']' ∉ s) : ¬ HasParamShape s := by
  rintro ⟨pre, name, suf, rfl, _, _⟩
  exact h (by simp)

/-- C5 (as amended): for a pattern whose segments are bare literals or
parameter segments prefix[name]suffix in which the prefix and the suffix hold
no line feed and [name] is the last bracketed name of the segment that can be
read so, with pairwise distinct names, the compiled expression has as
many capture groups as names and paramNames lists the names from left to
right; for values that are non-empty and without slash, the path p obtained by
replacing each bracketed name by its value (a slash before every segment, with
or without one trailing slash) is matched with exactly these values as
captures, and ServeHTTP invokes the handler with a map that sends the i-th
name to the i-th value and has no other key. -/
theorem param_extraction {H : Type} (method path : Str) (h : H) (specs : List SegSpec)
    (vals : List Str) (p : Str) (w : World) (pub : Public) (c : cors) (origin : Str)
    (hsegs : segments path = specs.map SegSpec.text)
    (hwf : ∀ sp ∈ specs, sp.WellFormed)
    (hnodup : ((specs.map SegSpec.names).flatten).Nodup)
    (hlen : vals.length = ((specs.map SegSpec.names).flatten).length)
    (hvals : ∀ v ∈ vals, v ≠ [] ∧ '/' ∉ v)
    (hp : p = fillSpecs specs vals ∨ p = fillSpecs specs vals ++ ['/'])
    (ho : method ≠ http.MethodOptions)
    (hst : servedStatic w pub { Method := method, Path := p, Origin := origin } = false) :
    ∃ (rt : route H) (params : Params),
      router.add { routes := [] } method path h = some { routes := [rt] } ∧
      rt.regex.NumSubexp = ((specs.map SegSpec.names).flatten).length ∧
      rt.paramNames = (specs.map SegSpec.names).flatten ∧
      rt.regex.FindStringSubmatch p = some (p :: vals) ∧
      App.ServeHTTP w { router := { routes := [rt] }, public := pub, CORS := c }
          { Method := method, Path := p, Origin := origin } =
        corsHeaders c { Method := method, Path := p, Origin := origin } ++
          probe pub { Method := method, Path := p, Origin := origin } ++
          [Effect.call h params] ∧
      (∀ nv ∈ ((specs.map SegSpec.names).flatten).zip vals,
        Params.get params nv.1 = some nv.2) ∧
      (∀ k, k ∉ (specs.map SegSpec.names).flatten → Params.get params k = none) := by
  have hd : declaredNames path = (specs.map SegSpec.names).flatten := by
    unfold declaredNames
    rw [hsegs]
    exact flatten_segNames_specs specs hwf
  have hi : instantiate path vals = fillSpecs specs vals := by
    unfold instantiate
    rw [hsegs]
    exact fillSegments_specs specs vals hwf
  have hkind : ∀ seg ∈ segments path, seg ≠ "*".toList := by
    intro seg hseg
    rw [hsegs] at hseg
    obtain ⟨sp, hsp, rfl⟩ := List.mem_map.mp hseg
    exact spec_text_ne_star sp (hwf sp hsp)
  rw [← hd] at hnodup hlen ⊢
  rw [← hi] at hp
  exact param_extraction_segKind method path h vals p w pub c origin hkind hnodup hlen hvals
    hp ho hst

/-- Witness of C5: the pattern /users/[id]/posts/x[pid]y with the values 42
and 7. -/
theorem param_extraction_witness :
    segments "/users/[id]/posts/x[pid]y".toList = postsSpecs.map SegSpec.text ∧
    (∀ sp ∈ postsSpecs, sp.WellFormed) ∧
    fillSpecs postsSpecs ["42".toList, "7".toList] = "/users/42/posts/x7y".toList ∧
    ∃ (rt : route Nat) (params : Params),
      router.add { routes := [] } "GET".toList "/users/[id]/posts/x[pid]y".toList 5 =
        some { routes := [rt] } ∧
      rt.regex.NumSubexp = 2 ∧
      rt.paramNames = ["id".toList, "pid".toList] ∧
      rt.regex.FindStringSubmatch "/users/42/posts/x7y".toList =
        some ["/users/42/posts/x7y".toList, "42".toList, "7".toList] ∧
      App.ServeHTTP emptyWorld
          { router := { routes := [rt] }, public := (New Nat).public, CORS := (New Nat).CORS }
          { Method := "GET".toList, Path := "/users/42/posts/x7y".toList, Origin := [] } =
        corsHeaders (New Nat).CORS
          { Method := "GET".toList, Path := "/users/42/posts/x7y".toList, Origin := [] } ++
          [Effect.call 5 params] ∧
      Params.get params "id".toList = some "42".toList ∧
      Params.get params "pid".toList = some "7".toList ∧
      Params.get params "other".toList = none := by
  have hwf : ∀ sp ∈ postsSpecs, sp.WellFormed := by
    intro sp hsp
    simp only [postsSpecs, List.mem_cons, List.mem_singleton, List.not_mem_nil, or_false] at hsp
    rcases hsp with rfl | rfl | rfl | rfl
    · exact ⟨not_hasParamShape_of_not_mem (by decide), by decide⟩
    · exact wellFormed_param_of_simple _ _ _ (by decide) (by decide) (by decide) (by decide)
        (by decide) (not_hasParamShape_of_not_mem (by decide))
    · exact ⟨not_hasParamShape_of_not_mem (by decide), by decide⟩
    · exact wellFormed_param_of_simple _ _ _ (by decide) (by decide) (by decide) (by decide)
        (by decide) (not_hasParamShape_of_not_mem (by decide))
  refine ⟨by decide, hwf, by decide, ?_⟩
  obtain ⟨rt, params, h1, h2, h3, h4, h5, h6, h7⟩ :=
    param_extraction "GET".toList "/users/[id]/posts/x[pid]y".toList 5 postsSpecs
      ["42".toList, "7".toList] "/users/42/posts/x7y".toList emptyWorld (New Nat).public
      (New Nat).CORS [] (by decide) hwf (by decide) (by decide) (by decide)
      (Or.inl (by decide)) (by decide) (by decide)
  have hn : (postsSpecs.map SegSpec.names).flatten = ["id".toList, "pid".toList] := by decide
  rw [hn] at h2 h3 h6 h7
  refine ⟨rt, params, h1, h2, h3, h4, ?_, h6 ("id".toList, "42".toList) (by decide),
    h6 ("pid".toList, "7".toList) (by decide), h7 "other".toList (by decide)⟩
  rw [h5]
  rfl

/-- Counterexample to C5 as stated, at four patterns of one parameter segment
prefix[name]suffix each.  With a line feed in the prefix (a, line feed, [id])
or in the suffix ([id], line feed, b) the code takes the segment for a
literal: no parameter name, no capture group, and the path with 42 in the
place of [id] is not matched.  When the bracketed name is not the last one of
the segment ([a][b] read as name a, suffix [b]; [a[b] read as name a[b) the
code records the name b, and the path with v in the place of the bracketed
name is not matched. -/
theorem param_shape_not_parsed :
    (∃ rt : route Nat,
      router.add { routes := [] } "GET".toList "/a\n[id]".toList 5 = some { routes := [rt] } ∧
      segments "/a\n[id]".toList = [(SegSpec.param "a\n".toList "id".toList []).text] ∧
      rt.paramNames = [] ∧ rt.regex.NumSubexp = 0 ∧
      rt.regex.MatchString
        (fillSpecs [SegSpec.param "a\n".toList "id".toList []] ["42".toList]) = false) ∧
    (∃ rt : route Nat,
      router.add { routes := [] } "GET".toList "/[id]\nb".toList 5 = some { routes := [rt] } ∧
      segments "/[id]\nb".toList = [(SegSpec.param [] "id".toList "\nb".toList).text] ∧
      rt.paramNames = [] ∧ rt.regex.NumSubexp = 0 ∧
      rt.regex.MatchString
        (fillSpecs [SegSpec.param [] "id".toList "\nb".toList] ["42".toList]) = false) ∧
    (∃ rt : route Nat,
      router.add { routes := [] } "GET".toList "/[a][b]".toList 5 = some { routes := [rt] } ∧
      segments "/[a][b]".toList = [(SegSpec.param [] "a".toList "[b]".toList).text] ∧
      rt.paramNames = ["b".toList] ∧
      rt.regex.MatchString
        (fillSpecs [SegSpec.param [] "a".toList "[b]".toList] ["v".toList]) = false) ∧
    (∃ rt : route Nat,
      router.add { routes := [] } "GET".toList "/[a[b]".toList 5 = some { routes := [rt] } ∧
      segments "/[a[b]".toList = [(SegSpec.param [] "a[b".toList []).text] ∧
      rt.paramNames = ["b".toList] ∧
      rt.regex.MatchString
        (fillSpecs [SegSpec.param [] "a[b".toList []] ["v".toList]) = false) :=
  ⟨⟨_, rfl, by decide, by decide, by decide, by decide⟩,
   ⟨_, rfl, by decide, by decide, by decide, by decide⟩,
   ⟨_, rfl, by decide, by decide, by decide⟩,
   ⟨_, rfl, by decide, by decide, by decide⟩⟩

end Zapi
